import Mathlib

/-!
Verification development for the `score.init` module-initialization core
(`score/init/dependency.py` and `score/init/initializer.py`).

The Python code is shallowly embedded: Python `dict`s become insertion-ordered
association lists (`List (key × value)`), Python `set`s become duplicate-free
lists in insertion order (`set.pop` is modelled as taking the first element;
the claims proved below are insensitive to this arbitrary choice), and Python
exceptions become `Except`/sum result types.  Functions keep their source
names where Lean allows it.
-/

deriving instance DecidableEq for Except

namespace ScoreInit

abbrev Node := String

/-- Association-list lookup, modelling Python `d[k]` / `k in d`. -/
def alookup {α : Type} : List (Node × α) → Node → Option α
  | [], _ => none
  | p :: rest, k => if p.1 = k then some p.2 else alookup rest k

/-- Replace the value stored under key `k` by `f` of it, in place (models
mutation of a dict entry / of the set object it holds). -/
def updVal {α : Type} : List (Node × α) → Node → (α → α) → List (Node × α)
  | [], _, _ => []
  | p :: rest, k, f => (if p.1 = k then (k, f p.2) else p) :: updVal rest k f

/-- Python dict assignment `d[k] = v`: overwrite in place if the key exists
(keeping its position, as Python dicts do), otherwise append at the end. -/
def dictInsert {α : Type} (m : List (Node × α)) (k : Node) (v : α) : List (Node × α) :=
  if (alookup m k).isSome then updVal m k (fun _ => v)
  else m ++ [(k, v)]

/-- The dependency map of a `DependencySolver` (`self._dependencies` in
`dependency.py`): node → set of nodes it depends on. -/
abbrev DepMap := List (Node × List Node)

/-- `class DependencySolver` (dependency.py line 30): state is the mapping
`self._dependencies` from node to its set of direct dependencies. -/
structure DependencySolver where
  _dependencies : DepMap
deriving DecidableEq

/-- `DependencySolver.__init__`: empty dependency map. -/
def DependencySolver.new : DependencySolver := ⟨[]⟩

/-- Add `v` to the set at key `k` (Python `self._dependencies[from_].add(to)`):
sets de-duplicate, new elements go last in iteration order. -/
def setAdd (m : DepMap) (k v : Node) : DepMap :=
  updVal m k (fun ds => if v ∈ ds then ds else ds ++ [v])

/-- `DependencySolver.add_dependency` (dependency.py lines 46-55): register
`from_` as tracked, then add the edge when `to` is given. -/
def add_dependency (s : DependencySolver) (from_ : Node) (to_ : Option Node) :
    DependencySolver :=
  let m := if (alookup s._dependencies from_).isSome then s._dependencies
           else s._dependencies ++ [(from_, [])]
  match to_ with
  | none => ⟨m⟩
  | some t => ⟨setAdd m from_ t⟩

/-- `DependencySolver.remove_dependency` (dependency.py lines 59-66):
`difference_update({to})` on the stored set; no-op on an untracked node. -/
def remove_dependency (s : DependencySolver) (from_ to_ : Node) : DependencySolver :=
  if (alookup s._dependencies from_).isSome then
    ⟨updVal s._dependencies from_ (fun ds => ds.filter (fun d => decide (d ≠ to_)))⟩
  else s

/-- `DependencySolver.direct_dependencies` (lines 68-80): the stored set of
`node`, empty when `node` is untracked. -/
def direct_dependencies (s : DependencySolver) (node : Node) : List Node :=
  match alookup s._dependencies node with
  | none => []
  | some deps => deps

/-- `DependencySolver.direct_dependents` (lines 82-97): iterates the whole map
but RETURNS EARLY (empty) when `node` itself is untracked, and always skips
`other == node`. -/
def direct_dependents (s : DependencySolver) (node : Node) : List Node :=
  match alookup s._dependencies node with
  | none => []
  | some _ =>
    (s._dependencies.filter (fun p => decide (p.1 ≠ node ∧ node ∈ p.2))).map Prod.fst

/-- `DependencySolver.has_direct_dependency` (lines 99-103). -/
def has_direct_dependency (s : DependencySolver) (from_ to_ : Node) : Bool :=
  match alookup s._dependencies from_ with
  | none => false
  | some deps => decide (to_ ∈ deps)

/-! ### solve()

`DependencySolver.solve` (dependency.py lines 105-139).  The Python code
keeps a local dict `dependencies` whose values ALIAS the stored set objects
of `self._dependencies`; `difference_update`/`pop` therefore mutate the
solver's own state.  The embedding separates the two roles: `store` is the
current value of every stored set object (all original keys), and `locl`
is the key list of the local `dependencies` dict.  Reads of
`dependencies[item]` go through `store`, deletion only shrinks `locl`. -/

/-- The initial loop of `solve` (lines 110-118): items with an empty set go
straight to `sorted_`; items with dependencies are entered into the local
dict, and each of their dependencies that is not itself tracked is appended
to `sorted_` (once per dependent — the source has no de-duplication here).
Returns `(sorted_, locl)`. -/
def preprocessGo (E : DepMap) : DepMap → List Node × List Node
  | [] => ([], [])
  | (item, ds) :: rest =>
    let r := preprocessGo E rest
    if ds = [] then (item :: r.1, r.2)
    else ((ds.filter (fun d => decide (alookup E d = none))) ++ r.1, item :: r.2)

/-- Overwrite the set object stored under `k` (mutation of the aliased set). -/
def storeSet (store : DepMap) (k : Node) (v : List Node) : DepMap :=
  updVal store k (fun _ => v)

/-- One iteration `for item in list(dependencies.keys())` of the `while`
loop (lines 122-132), processing the snapshot `items`.  State is
`(sorted_, store, locl, updated)`. -/
def solvePass : List Node → List Node → DepMap → List Node → Bool →
    List Node × DepMap × List Node × Bool
  | [], sorted_, store, locl, updated => (sorted_, store, locl, updated)
  | item :: items, sorted_, store, locl, updated =>
    let deps := (alookup store item).getD []
    if deps.filter (fun d => decide (d ∈ sorted_)) = [] then
      solvePass items sorted_ store locl updated
    else if deps.all (fun d => decide (d ∈ sorted_)) then
      solvePass items (sorted_ ++ [item]) store
        (locl.filter (fun k => decide (k ≠ item))) true
    else
      solvePass items sorted_
        (storeSet store item (deps.filter (fun d => decide (d ∉ sorted_)))) locl true

/-- Termination measure for the `while updated` loop: total size of the
local dict (Python's loop always terminates; the fuel passed by `solve`
is provably sufficient, see `solveLoopF_isFix`). -/
def weight (store : DepMap) (l : List Node) : Nat :=
  (l.map (fun k => 1 + ((alookup store k).getD []).length)).sum

/-- The `while updated:` loop (lines 119-132). -/
def solveLoopF : Nat → List Node → DepMap → List Node →
    List Node × DepMap × List Node
  | 0, sorted_, store, locl => (sorted_, store, locl)
  | fuel + 1, sorted_, store, locl =>
    match solvePass locl sorted_ store locl false with
    | (s', st', l', true) => solveLoopF fuel s' st' l'
    | (s', st', l', false) => (s', st', l')

/-- `dependencies[k].pop()` during witness construction (lines 135-137):
KeyError (`none`) when `k` is not in the local dict or its set is empty;
otherwise removes (our model: the first) element of the aliased set. -/
def popDep (store : DepMap) (locl : List Node) (k : Node) :
    Option (Node × DepMap) :=
  if k ∈ locl then
    match alookup store k with
    | some (d :: rest) => some (d, storeSet store k rest)
    | _ => none
  else none

/-- The `while loop[-1] not in loop[:-1]` witness loop (lines 136-137).
`seen` is `loop[:-1]`, `last` is `loop[-1]`.  Returns the final path and the
(mutated) store; `none` models an uncaught KeyError.  The fuel passed by
`solve` is provably sufficient (`buildLoopF` adds a fresh node of `locl` to
`seen` at every step). -/
def buildLoopF : Nat → DepMap → List Node → List Node → Node →
    Option (List Node) × DepMap
  | fuel, store, locl, seen, last =>
    if last ∈ seen then (some (seen ++ [last]), store)
    else match fuel with
      | 0 => (none, store)
      | n + 1 =>
        match popDep store locl last with
        | none => (none, store)
        | some (d, store') => buildLoopF n store' locl (seen ++ [last]) d

/-- Outcome of `solve()`: the sorted sequence, a `DependencyLoop(loop)`
exception, or an uncaught `KeyError` (never actually reached, see
`solve_cyclic_raises_loop`). -/
inductive SolveResult where
  | ok (sorted_ : List Node)
  | dependencyLoop (loop : List Node)
  | keyErr
deriving DecidableEq

/-- `DependencySolver.solve` (lines 105-139), returning the result together
with the post-call solver state (the stored sets are aliased by the local
dict and may be mutated by the call). -/
def solve (s : DependencySolver) : SolveResult × DependencySolver :=
  let E := s._dependencies
  let pre := preprocessGo E E
  let r := solveLoopF (weight E pre.2 + 1) pre.1 E pre.2
  match r.2.2 with
  | [] => (.ok r.1, ⟨r.2.1⟩)
  | item :: _ =>
    match popDep r.2.1 r.2.2 item with
    | none => (.keyErr, ⟨r.2.1⟩)
    | some (d0, st2) =>
      match buildLoopF (r.2.2.length + 1) st2 r.2.2 [item] d0 with
      | (some path, st3) => (.dependencyLoop path, ⟨st3⟩)
      | (none, st3) => (.keyErr, ⟨st3⟩)

/-! ### initializer.py -/

/-- Structured form of the exceptions raised by `initializer.py`
(`ConfigurationError`, `InitializationError`, `DependencyLoop` from
`.exceptions`, plus the built-in `KeyError`/`ValueError`/`StopIteration`
that can escape uncaught). -/
inductive ScoreErr where
  | missingModules (names : List String)
  | missingDependencies (missing : List (Node × List String))
  | noInitFunction (modname : String)
  | initNotFunction (modname : String)
  | notConfiguredModule (modname : String)
  | emptyAwait (modname : String)
  | unknownAwait (modname : String) (unknowns : List String)
  | changedDeps (modname : String)
  | dependencyLoop (operation : String) (loop : List Node)
  | keyError (key : Node)
  | valueError
  | stopIteration
deriving DecidableEq

/-- Modelled external collaborator (`importlib.import_module` plus the
`hasattr`/`callable` checks and `inspect.signature` of `module.init`,
initializer.py lines 231-251): per fully-qualified name, either an import
failure, a missing/uncallable `init`, or the ordered parameter list of
`init` with a has-default flag per parameter. -/
inductive LocateResult where
  | notFound
  | noInit
  | initNotCallable
  | ok (params : List (String × Bool))
deriving DecidableEq

/-- `ConfiguredModule` (initializer.py line 132): opaque result of a module's
`init`, carrying its module name. -/
structure ConfModule where
  _module : String
deriving DecidableEq

/-- Attribute name used by `ConfiguredScore.__init__` (lines 179-183):
`name[6:]` when the name starts with `score.`, otherwise the full name
(computed on the character list, as Python slices strings by character). -/
def stripScore (name : String) : String :=
  if name.data.take 6 = "score.".data then ⟨name.data.drop 6⟩ else name

/-- `ConfiguredScore` (lines 164-222): the merged configuration, the
module dict, and the `setattr`-exposed attribute table. -/
structure ConfiguredScore where
  conf : List (Node × List (Node × String))
  _modules : List (Node × ConfModule)
  attrs : List (Node × ConfModule)
deriving DecidableEq

/-- `ConfiguredScore.__init__` (lines 173-183). -/
def ConfiguredScore.make (confdict : List (Node × List (Node × String)))
    (modules : List (Node × ConfModule)) : ConfiguredScore :=
  { conf := confdict
    _modules := modules
    attrs := modules.foldl (fun acc p => dictInsert acc (stripScore p.1) p.2) [] }

/-- `ConfiguredScore.__getitem__` (lines 221-222). -/
def ConfiguredScore.getitem (cs : ConfiguredScore) (module : Node) : Option ConfModule :=
  alookup cs._modules module

/-- Python attribute access on the configured score (`conf.ctx`). -/
def ConfiguredScore.attr (cs : ConfiguredScore) (name : Node) : Option ConfModule :=
  alookup cs.attrs name

/-! #### _sorted_dependency_map and its modelled networkx collaborator -/

/-- Modelled external library (networkx `DiGraph`): node list in
first-insertion order plus edge list; `add_edge` inserts both endpoints.
The anchor node `None` is `Option.none`. -/
structure NxDiGraph where
  nodes : List (Option Node)
  edges : List (Option Node × Option Node)
deriving DecidableEq

def nxAddNode (g : NxDiGraph) (n : Option Node) : NxDiGraph :=
  if n ∈ g.nodes then g else { g with nodes := g.nodes ++ [n] }

def nxAddEdge (g : NxDiGraph) (u v : Option Node) : NxDiGraph :=
  let g' := nxAddNode (nxAddNode g u) v
  if (u, v) ∈ g'.edges then g' else { g' with edges := g'.edges ++ [(u, v)] }

/-- Modelled external library: Kahn's algorithm standing in for
`nx.topological_sort`, returning `none` exactly when the graph has a cycle
(the source pre-detects that case via `nx.simple_cycles`; both conditions
coincide — a nonempty remainder in which every node has an incoming edge). -/
def kahnGo (edges : List (Option Node × Option Node)) :
    Nat → List (Option Node) → List (Option Node) → Option (List (Option Node))
  | 0, remaining, acc => if remaining = [] then some acc else none
  | fuel + 1, remaining, acc =>
    if remaining = [] then some acc
    else
      match remaining.find? (fun u => !(remaining.any (fun w => decide ((w, u) ∈ edges)))) with
      | none => none
      | some u => kahnGo edges fuel (remaining.filter (fun w => decide (w ≠ u))) (acc ++ [u])

/-- `_sorted_dependency_map` (initializer.py lines 288-302): build the
anchor graph, fail with `DependencyLoop` on a cycle, then re-key every
topologically-sorted non-anchor node through `dependency_map[module]` —
an absent key (a node that appears only as a dependency) raises `KeyError`.
The cycle payload of `DependencyLoop` is modelled as the node list (the
source takes one cycle from `nx.simple_cycles`; no claim inspects it). -/
def _sorted_dependency_map (dependency_map : List (Node × List Node))
    (operation : String) : Except ScoreErr (List (Node × List Node)) :=
  let g := dependency_map.foldl (fun g p =>
    if p.2 = [] then nxAddEdge g none (some p.1)
    else p.2.foldl (fun g d => nxAddEdge g (some d) (some p.1)) g) ⟨[], []⟩
  match kahnGo g.edges g.nodes.length g.nodes [] with
  | none => .error (.dependencyLoop operation (g.nodes.filterMap id))
  | some order =>
    order.foldl (fun acc node =>
      match acc with
      | .error e => .error e
      | .ok lst =>
        match node with
        | none => .ok lst
        | some m =>
          match alookup dependency_map m with
          | none => .error (.keyError m)
          | some v => .ok (lst ++ [(m, v)])) (.ok [])

/-! #### dependency collection -/

/-- The per-module loop of `_collect_dependencies` (lines 228-252):
accumulates missing imports, raises immediately on a missing or uncallable
`init`, and records the parameter list minus its first entry (the confdict
parameter) keyed by full module name. -/
def collectLoop (reg : String → LocateResult) :
    List (Node × String) → List String → List (Node × List (String × Bool)) →
    Except ScoreErr (List String × List (Node × List (String × Bool)))
  | [], missing, dmap => .ok (missing, dmap)
  | (_, modname) :: rest, missing, dmap =>
    if modname = "score.init" then collectLoop reg rest missing dmap
    else
      match reg modname with
      | .notFound => collectLoop reg rest (missing ++ [modname]) dmap
      | .noInit => .error (.noInitFunction modname)
      | .initNotCallable => .error (.initNotFunction modname)
      | .ok params => collectLoop reg rest missing (dictInsert dmap modname (params.drop 1))

/-- The scan of `_remove_missing_optional_dependencies` (lines 262-275):
resolve each parameter name against the short-name table, silently drop
unresolved optional parameters, and accumulate unresolved required ones
into the `missing` dict (name of missing dependency → requiring modules,
in scan order). -/
def rmLoop (modules : List (Node × String)) :
    List (Node × List (String × Bool)) → List (Node × List Node) →
    List (Node × List String) →
    List (Node × List Node) × List (Node × List String)
  | [], acc, missing => (acc, missing)
  | (name, mdeps) :: rest, acc, missing =>
    let st := mdeps.foldl (fun (st : List Node × List (Node × List String)) dp =>
      match alookup modules dp.1 with
      | some full => (st.1 ++ [full], st.2)
      | none =>
        if dp.2 then st
        else
          if (alookup st.2 dp.1).isSome then
            (st.1, updVal st.2 dp.1 (fun dl => dl ++ [name]))
          else (st.1, st.2 ++ [(dp.1, [name])])) ([], missing)
    rmLoop modules rest (acc ++ [(name, st.1)]) st.2

/-- `_remove_missing_optional_dependencies` (lines 262-285). -/
def _remove_missing_optional_dependencies (modules : List (Node × String))
    (dependency_map : List (Node × List (String × Bool))) :
    Except ScoreErr (List (Node × List Node)) :=
  let r := rmLoop modules dependency_map [] []
  if r.2 = [] then .ok r.1 else .error (.missingDependencies r.2)

/-- `_collect_dependencies` (lines 225-259). -/
def _collect_dependencies (reg : String → LocateResult)
    (modules : List (Node × String)) : Except ScoreErr (List (Node × List Node)) :=
  match collectLoop reg modules [] [] with
  | .error e => .error e
  | .ok (missing, dmap) =>
    if missing = [] then _remove_missing_optional_dependencies modules dmap
    else .error (.missingModules missing)

/-! #### _init -/

/-- Characters after the last `.` of the list, `none` when there is none. -/
def afterLastDot : List Char → Option (List Char)
  | [] => none
  | c :: rest =>
    match afterLastDot rest with
    | some r => some r
    | none => if c = '.' then some rest else none

/-- The short-name slice of `_init` (line 86): the segment after the last
dot; `none` models the `ValueError` of `rindex` on a dot-free name. -/
def shortName (line : String) : Option String :=
  (afterLastDot line.data).map (fun cs => ⟨cs⟩)

/-- The `modules[name] = line` loop of `_init` (lines 85-87). -/
def buildModules : List String → List (Node × String) →
    Except ScoreErr (List (Node × String))
  | [], acc => .ok acc
  | line :: rest, acc =>
    match shortName line with
    | none => .error .valueError
    | some name => buildModules rest (dictInsert acc name line)

/-- `confdict['score.init']['modules']` with `KeyError` as `none`. -/
def lookup2 (confdict : List (Node × List (Node × String))) (sec key : Node) :
    Option String :=
  match alookup confdict sec with
  | none => none
  | some m => alookup m key

/-- The kwargs construction of `_init` (lines 96-98): for each dependency,
the first short name mapping to it (`StopIteration` if none) paired with its
already-initialized `ConfiguredModule` (`KeyError` if absent). -/
def kwargsOf (modules : List (Node × String)) (initialized : List (Node × ConfModule)) :
    List Node → Except ScoreErr (List (Node × ConfModule))
  | [] => .ok []
  | dep :: rest =>
    match modules.find? (fun p => decide (p.2 = dep)) with
    | none => .error .stopIteration
    | some p =>
      match alookup initialized dep with
      | none => .error (.keyError dep)
      | some conf =>
        match kwargsOf modules initialized rest with
        | .error e => .error e
        | .ok ks => .ok ((p.1, conf) :: ks)

/-- The initialization loop of `_init` (lines 90-106).  `minit` models the
external `importlib.import_module(module).init(modconf, **kwargs)` call;
`none` models a return value that is not a `ConfiguredModule`.  The second
component of the result records which modules' `init` was invoked, in
order. -/
def initLoop (minit : String → List (Node × String) → List (Node × ConfModule) → Option ConfModule)
    (confdict : List (Node × List (Node × String)))
    (modules : List (Node × String)) (dmap : List (Node × List Node)) :
    List Node → List (Node × ConfModule) → List String →
    Except ScoreErr (List (Node × ConfModule)) × List String
  | [], initialized, trace => (.ok initialized, trace)
  | module :: rest, initialized, trace =>
    match alookup dmap module with
    | none => (.error (.keyError module), trace)
    | some module_dependencies =>
      let modconf := (alookup confdict module).getD []
      match kwargsOf modules initialized module_dependencies with
      | .error e => (.error e, trace)
      | .ok kwargs =>
        let trace := trace ++ [module]
        match minit module modconf kwargs with
        | none => (.error (.notConfiguredModule module), trace)
        | some conf => initLoop minit confdict modules dmap rest (initialized ++ [(module, conf)]) trace

/-- `_init` (initializer.py lines 79-107), with the external collaborators
(`parse_list` from `.config`, the module locator/reflection `reg`, and the
modules' `init` functions `minit`) passed as parameters.  Also returns the
trace of invoked module `init`s. -/
def _initT (parse_list : String → List String) (reg : String → LocateResult)
    (minit : String → List (Node × String) → List (Node × ConfModule) → Option ConfModule)
    (confdict : List (Node × List (Node × String))) :
    Except ScoreErr ConfiguredScore × List String :=
  match lookup2 confdict "score.init" "modules" with
  | none => (.ok (ConfiguredScore.make confdict []), [])
  | some v =>
    match buildModules (parse_list v) [] with
    | .error e => (.error e, [])
    | .ok modules =>
      match _collect_dependencies reg modules with
      | .error e => (.error e, [])
      | .ok dmap =>
        match _sorted_dependency_map dmap "initialization" with
        | .error e => (.error e, [])
        | .ok sorted_ =>
          match initLoop minit confdict modules dmap (sorted_.map Prod.fst) [] [] with
          | (.error e, trace) => (.error e, trace)
          | (.ok initialized, trace) => (.ok (ConfiguredScore.make confdict initialized), trace)

/-! #### ConfiguredScore._finalize -/

/-- Outcome of one `conf._finalize(...)` attempt: normal return, or an
`AwaitFinalization(modules)` exception. -/
inductive FinOutcome where
  | ok
  | await (modules : List String)
deriving DecidableEq

/-- Pass 1 of `ConfiguredScore._finalize` (lines 186-207): try every module
in initialization order; record deferrals in the deferral map after checking
them for emptiness and unknown targets.  `behavior name k` is the modelled
`conf._finalize` of module `name` on attempt `k`; the trace records every
attempt made. -/
def finPass1 (behavior : Node → Nat → FinOutcome) (allNames : List Node) :
    List Node → List (Node × List Node) → List (Node × Nat) →
    Except ScoreErr (List (Node × List Node)) × List (Node × Nat)
  | [], dmap, trace => (.ok dmap, trace)
  | name :: rest, dmap, trace =>
    let trace := trace ++ [(name, 1)]
    match behavior name 1 with
    | .ok => finPass1 behavior allNames rest dmap trace
    | .await ms =>
      if ms = [] then (.error (.emptyAwait name), trace)
      else
        let unknowns := ms.filter (fun m => decide (m ∉ allNames))
        if unknowns = [] then finPass1 behavior allNames rest (dictInsert dmap name ms) trace
        else (.error (.unknownAwait name unknowns), trace)

/-- Pass 2 of `ConfiguredScore._finalize` (lines 208-216): retry the modules
of the solved deferral map in order; any renewed deferral is fatal. -/
def finPass2 (behavior : Node → Nat → FinOutcome) :
    List Node → List (Node × Nat) → Except ScoreErr Unit × List (Node × Nat)
  | [], trace => (.ok (), trace)
  | name :: rest, trace =>
    let trace := trace ++ [(name, 2)]
    match behavior name 2 with
    | .ok => finPass2 behavior rest trace
    | .await _ => (.error (.changedDeps name), trace)

/-- `ConfiguredScore._finalize` (lines 185-216): pass 1, then solve the
deferral map with `_sorted_dependency_map`, then pass 2. -/
def score_finalize (behavior : Node → Nat → FinOutcome) (names : List Node) :
    Except ScoreErr Unit × List (Node × Nat) :=
  match finPass1 behavior names names [] [] with
  | (.error e, trace) => (.error e, trace)
  | (.ok dmap, trace) =>
    match _sorted_dependency_map dmap "finalization" with
    | .error e => (.error e, trace)
    | .ok sorted_ => finPass2 behavior (sorted_.map Prod.fst) trace

/-! ### Derived notions used by the statements -/

/-- Well-formedness of a stored dependency map: keys are distinct (Python
dict) and every stored set is duplicate-free (Python set).  Every state
reachable through `add_dependency`/`remove_dependency` satisfies this. -/
def WFdep (E : DepMap) : Prop :=
  (E.map Prod.fst).Nodup ∧ ∀ p ∈ E, p.2.Nodup

instance : DecidablePred WFdep := fun E => by
  unfold WFdep; infer_instance

/-- The edge relation of a stored dependency map: `a` depends directly
on `b`. -/
def hasEdge (E : DepMap) (a b : Node) : Prop :=
  ∃ ds, alookup E a = some ds ∧ b ∈ ds

instance (E : DepMap) (a b : Node) : Decidable (hasEdge E a b) :=
  match h : alookup E a with
  | none => .isFalse (by simp [hasEdge, h])
  | some ds => decidable_of_iff (b ∈ ds) (by simp [hasEdge, h])

/-- A dependency map is acyclic when no node reaches itself through a
nonempty edge chain. -/
def Acyclic (E : DepMap) : Prop :=
  ∀ x, ¬ Relation.TransGen (hasEdge E) x x

/-- Number of tracked entries whose stored set contains `d`. -/
def countDependents (E : DepMap) (d : Node) : Nat :=
  (E.filter (fun p => decide (d ∈ p.2))).length

/-- The effect of one parameter `dp` of module `name` on the `missing` dict
of `_remove_missing_optional_dependencies` (the second component of the
fold step inside `rmLoop`). -/
def msStep (modules : List (Node × String)) (name : Node)
    (m : List (Node × List String)) (dp : String × Bool) : List (Node × List String) :=
  if (alookup modules dp.1).isSome ∨ dp.2 = true then m
  else if (alookup m dp.1).isSome then updVal m dp.1 (fun dl => dl ++ [name])
  else m ++ [(dp.1, [name])]

/-- Invariant of the `while updated` loop of `solve()` relative to the
original map `E`: `s` is `sorted_`, `st` the current stored set values,
`l` the keys of the local dict. -/
structure SolveInv (E : DepMap) (s : List Node) (st : DepMap) (l : List Node) : Prop where
  keys_eq : st.map Prod.fst = E.map Prod.fst
  sub : ∀ k ds ds₀, alookup st k = some ds → alookup E k = some ds₀ → ds.Sublist ds₀
  locl_nodup : l.Nodup
  locl_sub : ∀ k ∈ l, k ∈ E.map Prod.fst
  locl_iff : ∀ k ∈ E.map Prod.fst, (k ∈ l ↔ k ∉ s)
  deps_cover : ∀ k ∈ l, ∀ ds ds₀, alookup st k = some ds → alookup E k = some ds₀ →
    ∀ d ∈ ds₀, d ∈ ds ∨ d ∈ s
  deps_ne : ∀ k ∈ l, ∀ ds, alookup st k = some ds → ds ≠ []
  placed : ∀ p x q, s = p ++ x :: q → ∀ ds₀, alookup E x = some ds₀ →
    ∀ d ∈ ds₀, d ∈ p ∧ d ∉ x :: q
  count_le : ∀ k ∈ E.map Prod.fst, s.count k ≤ 1
  count_dep : ∀ d, d ∉ E.map Prod.fst → s.count d = countDependents E d

/-! ## Basic lemmas about the association-list operations -/

theorem alookup_eq_none {α : Type} (l : List (Node × α)) (k : Node) :
    alookup l k = none ↔ k ∉ l.map Prod.fst := by
  induction l with
  | nil => simp [alookup]
  | cons p rest ih =>
    by_cases h : p.1 = k
    · subst h
      simp [alookup]
    · rw [alookup, if_neg h]
      simp only [List.map_cons, List.mem_cons]
      rw [ih]
      constructor
      · rintro hn (hc | hc)
        · exact h hc.symm
        · exact hn hc
      · exact fun hn hc => hn (Or.inr hc)

theorem alookup_mem {α : Type} {l : List (Node × α)} {k : Node} {v : α}
    (h : alookup l k = some v) : (k, v) ∈ l := by
  induction l with
  | nil => simp [alookup] at h
  | cons p rest ih =>
    obtain ⟨a, b⟩ := p
    by_cases hp : a = k
    · rw [alookup, if_pos hp] at h
      injection h with hb
      subst hp; subst hb
      exact List.mem_cons_self _ _
    · rw [alookup, if_neg hp] at h
      exact List.mem_cons_of_mem _ (ih h)

theorem alookup_isSome {α : Type} (l : List (Node × α)) (k : Node) :
    (alookup l k).isSome ↔ k ∈ l.map Prod.fst := by
  cases h : alookup l k with
  | none =>
    simp only [Option.isSome_none, Bool.false_eq_true, false_iff]
    exact (alookup_eq_none l k).1 h
  | some v =>
    simp only [Option.isSome_some, true_iff]
    exact List.mem_map_of_mem Prod.fst (alookup_mem h)

theorem alookup_of_mem_nodup {α : Type} {l : List (Node × α)} {k : Node} {v : α}
    (hnd : (l.map Prod.fst).Nodup) (h : (k, v) ∈ l) : alookup l k = some v := by
  induction l with
  | nil => simp at h
  | cons p rest ih =>
    rcases List.mem_cons.1 h with h1 | h1
    · rw [← h1, alookup, if_pos rfl]
    · have hk : k ∈ rest.map Prod.fst := by
        simpa using List.mem_map_of_mem Prod.fst h1
      have hp : p.1 ≠ k := fun he => (List.nodup_cons.1 hnd).1 (he ▸ hk)
      rw [alookup, if_neg hp]
      exact ih (List.nodup_cons.1 hnd).2 h1

theorem alookup_append {α : Type} (l₁ l₂ : List (Node × α)) (k : Node) :
    alookup (l₁ ++ l₂) k =
      match alookup l₁ k with
      | some v => some v
      | none => alookup l₂ k := by
  induction l₁ with
  | nil => simp [alookup]
  | cons p rest ih =>
    by_cases h : p.1 = k <;> simp [alookup, h, ih]

theorem alookup_updVal_self {α : Type} (m : List (Node × α)) (k : Node) (f : α → α) :
    alookup (updVal m k f) k = (alookup m k).map f := by
  induction m with
  | nil => simp [updVal, alookup]
  | cons p rest ih =>
    by_cases h : p.1 = k
    · simp [updVal, alookup, h]
    · simp [updVal, alookup, h, ih]

theorem alookup_updVal_ne {α : Type} (m : List (Node × α)) {k j : Node} (f : α → α)
    (h : j ≠ k) : alookup (updVal m k f) j = alookup m j := by
  induction m with
  | nil => simp [updVal, alookup]
  | cons p rest ih =>
    rw [updVal]
    by_cases hp : p.1 = k
    · rw [if_pos hp]
      simp only [alookup]
      rw [if_neg (fun he : k = j => h he.symm),
        if_neg (fun he : p.1 = j => h ((hp.symm.trans he).symm)), ih]
    · rw [if_neg hp]
      simp only [alookup]
      by_cases hj : p.1 = j
      · rw [if_pos hj, if_pos hj]
      · rw [if_neg hj, if_neg hj, ih]

theorem updVal_keys {α : Type} (m : List (Node × α)) (k : Node) (f : α → α) :
    (updVal m k f).map Prod.fst = m.map Prod.fst := by
  induction m with
  | nil => rfl
  | cons p rest ih =>
    by_cases h : p.1 = k <;> simp [updVal, h, ih]

theorem updVal_id_of_no_key {α : Type} (m : List (Node × α)) (k : Node) (f : α → α)
    (h : ∀ p ∈ m, p.1 ≠ k) : updVal m k f = m := by
  induction m with
  | nil => rfl
  | cons p rest ih =>
    rw [updVal, if_neg (h p (by simp)), ih (fun q hq => h q (by simp [hq]))]

theorem dictInsert_keys_nodup {α : Type} {m : List (Node × α)} (k : Node) (v : α)
    (h : (m.map Prod.fst).Nodup) : ((dictInsert m k v).map Prod.fst).Nodup := by
  unfold dictInsert
  by_cases hs : (alookup m k).isSome
  · rw [if_pos hs, updVal_keys]
    exact h
  · rw [if_neg hs]
    have hk : k ∉ m.map Prod.fst := by
      rw [← alookup_eq_none]
      exact Option.not_isSome_iff_eq_none.1 hs
    simp only [List.map_append, List.map_cons, List.map_nil]
    refine List.Nodup.append h (by simp) ?_
    intro x hx hxk
    rw [List.mem_singleton] at hxk
    exact hk (hxk ▸ hx)

theorem alookup_dictInsert_self {α : Type} (m : List (Node × α)) (k : Node) (v : α) :
    alookup (dictInsert m k v) k = some v := by
  unfold dictInsert
  by_cases hs : (alookup m k).isSome
  · rw [if_pos hs, alookup_updVal_self]
    obtain ⟨w, hw⟩ := Option.isSome_iff_exists.1 hs
    rw [hw]; rfl
  · rw [if_neg hs, alookup_append, Option.not_isSome_iff_eq_none.1 hs]
    simp [alookup]

theorem alookup_dictInsert_ne {α : Type} (m : List (Node × α)) {k j : Node} (v : α)
    (h : j ≠ k) : alookup (dictInsert m k v) j = alookup m j := by
  unfold dictInsert
  by_cases hs : (alookup m k).isSome
  · rw [if_pos hs, alookup_updVal_ne _ _ h]
  · rw [if_neg hs, alookup_append]
    cases hj : alookup m j with
    | some w => simp
    | none =>
      simp only [alookup]
      rw [if_neg (fun he : k = j => h he.symm)]

/-! ## C7 — add then remove an edge -/

theorem add_remove_restore {E : DepMap} {a b : Node}
    (hnd : (E.map Prod.fst).Nodup) {ds : List Node}
    (ha : alookup E a = some ds) (hb : b ∉ ds) :
    updVal (updVal E a (fun l => if b ∈ l then l else l ++ [b])) a
      (fun l => l.filter (fun d => decide (d ≠ b))) = E := by
  induction E with
  | nil => simp [alookup] at ha
  | cons p rest ih =>
    obtain ⟨x, vs⟩ := p
    by_cases hx : x = a
    · subst hx
      rw [alookup, if_pos rfl] at ha
      injection ha with hds
      subst hds
      have hrest : ∀ q ∈ rest, q.1 ≠ x := by
        intro q hq he
        apply (List.nodup_cons.1 hnd).1
        exact List.mem_map.2 ⟨q, hq, he⟩
      have hfb : vs.filter (fun d => decide (d ≠ b)) = vs :=
        List.filter_eq_self.2 (fun d hd => decide_eq_true (fun he => hb (he ▸ hd)))
      have h1 : updVal ((x, vs) :: rest) x (fun l => if b ∈ l then l else l ++ [b]) =
          (x, vs ++ [b]) :: rest := by
        simp [updVal, updVal_id_of_no_key rest x (fun l => if b ∈ l then l else l ++ [b]) hrest, hb]
      rw [h1]
      have h2 : updVal ((x, vs ++ [b]) :: rest) x
          (fun l => l.filter (fun d => decide (d ≠ b))) = (x, vs) :: rest := by
        simp [updVal, List.filter_append]
        refine ⟨fun d hd he => hb (he ▸ hd), updVal_id_of_no_key rest x _ hrest⟩
      exact h2
    · have hx' : ((x, vs) : Node × List Node).1 ≠ a := hx
      rw [alookup, if_neg hx'] at ha
      have htail := ih (List.nodup_cons.1 hnd).2 ha
      simp only [updVal]
      rw [if_neg hx', if_neg hx', htail]

/-- C7 counterexample: with pre-state `{c: {a}}` (node `a` untracked), adding
then removing the edge `a→b` leaves `a` tracked, so `direct_dependents(a)`
changes from `[]` to `[c]` — the claim that all direct-dependency queries
return exactly what they would have returned had the edge never been added is
false. -/
theorem C7_counterexample :
    direct_dependents (remove_dependency
        (add_dependency (add_dependency ⟨[]⟩ "c" (some "a")) "a" (some "b")) "a" "b") "a"
      = ["c"] ∧
    direct_dependents (add_dependency ⟨[]⟩ "c" (some "a")) "a" = [] := by decide

/-- C7 (amended): if the edge `a→b` is not already present and `a` is already
tracked, then `add_dependency(a, b)` followed by `remove_dependency(a, b)`
restores the exact previous state, so all direct-dependency queries
(`direct_dependencies`, `direct_dependents`, `has_direct_dependency`) return
exactly what they would have returned had the edge never been added. -/
theorem C7_add_remove_cancel (s : DependencySolver) (a b : Node)
    (hnd : (s._dependencies.map Prod.fst).Nodup)
    (ha : (alookup s._dependencies a).isSome)
    (hb : has_direct_dependency s a b = false) :
    remove_dependency (add_dependency s a (some b)) a b = s ∧
    (∀ n, direct_dependencies (remove_dependency (add_dependency s a (some b)) a b) n =
      direct_dependencies s n) ∧
    (∀ n, direct_dependents (remove_dependency (add_dependency s a (some b)) a b) n =
      direct_dependents s n) ∧
    (∀ x y, has_direct_dependency (remove_dependency (add_dependency s a (some b)) a b) x y =
      has_direct_dependency s x y) := by
  obtain ⟨ds, hds⟩ := Option.isSome_iff_exists.1 ha
  have hbds : b ∉ ds := by
    unfold has_direct_dependency at hb
    rw [hds] at hb
    simpa using hb
  have hstate : remove_dependency (add_dependency s a (some b)) a b = s := by
    unfold add_dependency
    rw [if_pos ha]
    unfold remove_dependency
    have hsome : (alookup (setAdd s._dependencies a b) a).isSome := by
      unfold setAdd
      rw [alookup_updVal_self, hds]
      rfl
    rw [if_pos hsome]
    unfold setAdd
    exact congrArg DependencySolver.mk (add_remove_restore hnd hds hbds)
  exact ⟨hstate, fun n => by rw [hstate], fun n => by rw [hstate], fun x y => by rw [hstate]⟩

/-- C7 witness: the amended theorem applied at the concrete state
`{a: {x}, c: {a}}` with edge `a→b`. -/
theorem C7_witness :
    ((([("a", ["x"]), ("c", ["a"])] : DepMap).map Prod.fst).Nodup ∧
      (alookup ([("a", ["x"]), ("c", ["a"])] : DepMap) "a").isSome ∧
      has_direct_dependency ⟨[("a", ["x"]), ("c", ["a"])]⟩ "a" "b" = false) ∧
    remove_dependency (add_dependency ⟨[("a", ["x"]), ("c", ["a"])]⟩ "a" (some "b")) "a" "b" =
      ⟨[("a", ["x"]), ("c", ["a"])]⟩ :=
  ⟨⟨by decide, by decide, by decide⟩,
    (C7_add_remove_cancel ⟨[("a", ["x"]), ("c", ["a"])]⟩ "a" "b"
      (by decide) (by decide) (by decide)).1⟩

/-! ## C10 — visibility of edges in the three queries -/

theorem self_not_mem_dependents (s : DependencySolver) (n : Node) :
    n ∉ direct_dependents s n := by
  unfold direct_dependents
  cases alookup s._dependencies n with
  | none => simp
  | some w =>
    intro hmem
    obtain ⟨p, hp, hfst⟩ := List.mem_map.1 hmem
    have := (List.mem_filter.1 hp).2
    rw [decide_eq_true_iff] at this
    exact this.1 hfst

theorem alookup_add_self (s : DependencySolver) (n t : Node) :
    alookup (add_dependency s n (some t))._dependencies n =
      some (if t ∈ (alookup s._dependencies n).getD [] then
        (alookup s._dependencies n).getD []
      else (alookup s._dependencies n).getD [] ++ [t]) := by
  unfold add_dependency setAdd
  by_cases hs : (alookup s._dependencies n).isSome
  · obtain ⟨ds, hds⟩ := Option.isSome_iff_exists.1 hs
    rw [if_pos hs]
    show alookup (updVal s._dependencies n _) n = _
    rw [alookup_updVal_self, hds]
    rfl
  · rw [if_neg hs]
    have hnone : alookup s._dependencies n = none := Option.not_isSome_iff_eq_none.1 hs
    show alookup (updVal (s._dependencies ++ [(n, [])]) n _) n = _
    rw [alookup_updVal_self, alookup_append, hnone]
    simp [alookup]

/-- C10 counterexample: after `add_dependency("a", "b")` on a fresh solver,
`has_direct_dependency("a","b")` and `direct_dependencies("a")` report the
edge but `direct_dependents("b")` is empty (node `b` is untracked and
`direct_dependents_iter` returns early), so the claim that for distinct
`a ≠ b` all three queries agree is false. -/
theorem C10_counterexample :
    has_direct_dependency (add_dependency ⟨[]⟩ "a" (some "b")) "a" "b" = true ∧
    direct_dependencies (add_dependency ⟨[]⟩ "a" (some "b")) "a" = ["b"] ∧
    direct_dependents (add_dependency ⟨[]⟩ "a" (some "b")) "b" = [] := by decide

/-- C10 (amended): self-edges are asymmetrically visible — after
`add_dependency(n, n)` both `has_direct_dependency(n, n)` and
`direct_dependencies(n)` report the edge while `direct_dependents(n)` never
contains `n` itself (for any state and any node); and for distinct `a ≠ b`
with a stored edge `a→b`, `direct_dependencies` always shows it while
`direct_dependents(b)` contains `a` exactly when `b` itself is tracked. -/
theorem C10_amended (s : DependencySolver) (n a b : Node) (hab : a ≠ b) :
    (n ∉ direct_dependents s n) ∧
    (has_direct_dependency (add_dependency s n (some n)) n n = true ∧
     n ∈ direct_dependencies (add_dependency s n (some n)) n ∧
     n ∉ direct_dependents (add_dependency s n (some n)) n) ∧
    (has_direct_dependency s a b = true →
      (b ∈ direct_dependencies s a ∧
       (a ∈ direct_dependents s b ↔ (alookup s._dependencies b).isSome))) := by
  refine ⟨self_not_mem_dependents s n, ⟨?_, ?_, self_not_mem_dependents _ n⟩, ?_⟩
  · unfold has_direct_dependency
    rw [alookup_add_self]
    by_cases hmem : n ∈ (alookup s._dependencies n).getD []
    · simp [hmem]
    · simp [hmem]
  · unfold direct_dependencies
    rw [alookup_add_self]
    by_cases hmem : n ∈ (alookup s._dependencies n).getD []
    · simp [hmem]
    · simp [hmem]
  · intro hd
    unfold has_direct_dependency at hd
    cases hds : alookup s._dependencies a with
    | none => rw [hds] at hd; simp at hd
    | some ds =>
      rw [hds] at hd
      have hbds : b ∈ ds := by simpa using hd
      constructor
      · unfold direct_dependencies
        rw [hds]
        exact hbds
      · constructor
        · intro hmem
          unfold direct_dependents at hmem
          cases hb : alookup s._dependencies b with
          | none =>
            rw [hb] at hmem
            exact absurd hmem (List.not_mem_nil a)
          | some w => rfl
        · intro hb
          obtain ⟨w, hw⟩ := Option.isSome_iff_exists.1 hb
          unfold direct_dependents
          rw [hw]
          refine List.mem_map.2 ⟨(a, ds), List.mem_filter.2 ⟨alookup_mem hds, ?_⟩, rfl⟩
          rw [decide_eq_true_iff]
          exact ⟨hab, hbds⟩

/-- C10 witness: the amended theorem applied at the concrete state
`{a: {b}, b: {}}`. -/
theorem C10_witness :
    ("a" : Node) ≠ "b" ∧
    (("z" : Node) ∉ direct_dependents ⟨[("a", ["b"]), ("b", [])]⟩ "z") ∧
    (has_direct_dependency (add_dependency ⟨[("a", ["b"]), ("b", [])]⟩ "z" (some "z")) "z" "z" = true ∧
     ("z" : Node) ∈ direct_dependencies (add_dependency ⟨[("a", ["b"]), ("b", [])]⟩ "z" (some "z")) "z" ∧
     ("z" : Node) ∉ direct_dependents (add_dependency ⟨[("a", ["b"]), ("b", [])]⟩ "z" (some "z")) "z") ∧
    (has_direct_dependency ⟨[("a", ["b"]), ("b", [])]⟩ "a" "b" = true →
      (("b" : Node) ∈ direct_dependencies ⟨[("a", ["b"]), ("b", [])]⟩ "a" ∧
       (("a" : Node) ∈ direct_dependents ⟨[("a", ["b"]), ("b", [])]⟩ "b" ↔
        (alookup (⟨[("a", ["b"]), ("b", [])]⟩ : DependencySolver)._dependencies "b").isSome))) :=
  ⟨by decide, C10_amended ⟨[("a", ["b"]), ("b", [])]⟩ "z" "a" "b" (by decide)⟩

/-! ## C8 — solve() mutates its own stored state (sometimes) -/

/-- C8 counterexample: on the state `{a: {b}}` a successful `solve()` leaves
the stored sets untouched, all direct-dependency queries unchanged, and a
second `solve()` returns the same result — so the claim that after ANY call
(success or failure) the queries and subsequent solves no longer reflect the
original edges is false. -/
theorem C8_counterexample :
    (solve ⟨[("a", ["b"])]⟩).2 = ⟨[("a", ["b"])]⟩ ∧
    (solve ⟨[("a", ["b"])]⟩).1 = .ok ["b", "a"] ∧
    solve (solve ⟨[("a", ["b"])]⟩).2 = solve ⟨[("a", ["b"])]⟩ ∧
    has_direct_dependency (solve ⟨[("a", ["b"])]⟩).2 "a" "b" = true := by decide

/-- C8 (amended): `solve()` can mutate the solver's stored per-node sets
through the local dict's aliasing — a successful solve that partially
difference-updates a set (state `{a: {b,c}, b: {c}}`) drops the stored edge
`a→c` and makes a repeated `solve()` return a different sequence, and a
cycle-raising solve (state `{a: {b}, b: {a}}`) pops the stored sets empty so
that a repeated `solve()` even succeeds; but when no partial update occurs
(state `{a: {b}}`) the state is left unchanged, so `solve()` is not
read-only in general yet not always mutating either. -/
theorem C8_amended :
    ((solve ⟨[("a", ["b", "c"]), ("b", ["c"])]⟩).1 = .ok ["c", "c", "b", "a"] ∧
     (solve ⟨[("a", ["b", "c"]), ("b", ["c"])]⟩).2 = ⟨[("a", ["b"]), ("b", ["c"])]⟩ ∧
     has_direct_dependency ⟨[("a", ["b", "c"]), ("b", ["c"])]⟩ "a" "c" = true ∧
     has_direct_dependency (solve ⟨[("a", ["b", "c"]), ("b", ["c"])]⟩).2 "a" "c" = false ∧
     (solve (solve ⟨[("a", ["b", "c"]), ("b", ["c"])]⟩).2).1 = .ok ["c", "b", "a"]) ∧
    ((solve ⟨[("a", ["b"]), ("b", ["a"])]⟩).1 = .dependencyLoop ["a", "b", "a"] ∧
     (solve ⟨[("a", ["b"]), ("b", ["a"])]⟩).2 = ⟨[("a", []), ("b", [])]⟩ ∧
     (solve (solve ⟨[("a", ["b"]), ("b", ["a"])]⟩).2).1 = .ok ["a", "b"]) ∧
    (solve ⟨[("a", ["b"])]⟩).2 = ⟨[("a", ["b"])]⟩ := by decide

/-! ## C2 / C3 — dependency-only nodes crash `_sorted_dependency_map` -/

/-- C2: a node that appears only as a dependency (`b` in `{a: [b]}`) makes
`_sorted_dependency_map` raise `KeyError(b)` instead of including it and
succeeding, while `DependencySolver.solve` on the same map does include it
and succeeds — the claimed invariant holds for `solve` but the orchestrators'
ordering pass crashes on exactly the inputs the invariant promises to
support. -/
theorem C2_sorted_map_keyerror :
    _sorted_dependency_map [("a", ["b"])] "initialization" = .error (.keyError "b") ∧
    (solve ⟨[("a", ["b"])]⟩).1 = .ok ["b", "a"] := by decide

/-- C3: in the claimed scenario — module `m.a` defers with wait-set
`{m.b}` on its first attempt and `m.b` finalizes successfully — pass 2's
`_sorted_dependency_map({m.a: [m.b]})` raises `KeyError(m.b)` (because `m.b`
finalized in pass 1 and therefore has no entry of its own), so `m.a` is
never retried at all: the trace shows exactly one attempt for each module
and the whole finalization aborts with the uncaught KeyError. -/
theorem C3_finalize_keyerror :
    score_finalize (fun n k => if n = "m.a" ∧ k = 1 then .await ["m.b"] else .ok)
      ["m.a", "m.b"] = (.error (.keyError "m.b"), [("m.a", 1), ("m.b", 1)]) := by decide

/-! ## C9 — missing score.init/modules configuration -/

/-- C9: when the configuration has no `score.init` section or that section
has no `modules` key, `_init` does not fail: it returns a configured score
with zero modules that still retains the full raw configuration mapping,
and no module `init` is invoked. -/
theorem C9_no_modules_key (parse_list : String → List String)
    (reg : String → LocateResult)
    (minit : String → List (Node × String) → List (Node × ConfModule) → Option ConfModule)
    (confdict : List (Node × List (Node × String)))
    (h : lookup2 confdict "score.init" "modules" = none) :
    _initT parse_list reg minit confdict = (.ok (ConfiguredScore.make confdict []), []) ∧
    (ConfiguredScore.make confdict []).conf = confdict ∧
    (ConfiguredScore.make confdict [])._modules = [] := by
  refine ⟨?_, rfl, rfl⟩
  unfold _initT
  rw [h]

/-- C9 witness: both trigger cases — a confdict without a `score.init`
section, and one whose `score.init` section lacks the `modules` key. -/
theorem C9_witness :
    (lookup2 [("db", [("host", "h")])] "score.init" "modules" = none ∧
     _initT (fun _ => []) (fun _ => .notFound) (fun _ _ _ => none) [("db", [("host", "h")])] =
       (.ok (ConfiguredScore.make [("db", [("host", "h")])] []), [])) ∧
    (lookup2 [("score.init", [("x", "y")])] "score.init" "modules" = none ∧
     _initT (fun _ => []) (fun _ => .notFound) (fun _ _ _ => none) [("score.init", [("x", "y")])] =
       (.ok (ConfiguredScore.make [("score.init", [("x", "y")])] []), [])) :=
  ⟨⟨by decide, (C9_no_modules_key _ _ _ _ (by decide)).1⟩,
   ⟨by decide, (C9_no_modules_key _ _ _ _ (by decide)).1⟩⟩

/-! ## C6 — lookup by full name and by attribute name -/

theorem attrs_eq (modules : List (Node × ConfModule))
    (h : (modules.map (fun p => stripScore p.1)).Nodup) :
    ∀ acc, (∀ p ∈ modules, alookup acc (stripScore p.1) = none) →
    modules.foldl (fun acc p => dictInsert acc (stripScore p.1) p.2) acc =
      acc ++ modules.map (fun p => (stripScore p.1, p.2)) := by
  induction modules with
  | nil => intro acc _; simp
  | cons p rest ih =>
    intro acc hacc
    rw [List.foldl_cons]
    have hnone : alookup acc (stripScore p.1) = none := hacc p (by simp)
    have hstep : dictInsert acc (stripScore p.1) p.2 = acc ++ [(stripScore p.1, p.2)] := by
      unfold dictInsert
      rw [if_neg (by rw [hnone]; simp)]
    rw [hstep]
    have hfresh : ∀ q ∈ rest, alookup (acc ++ [(stripScore p.1, p.2)]) (stripScore q.1) = none := by
      intro q hq
      rw [alookup_append, hacc q (by simp [hq])]
      have hne : stripScore p.1 ≠ stripScore q.1 := by
        intro he
        exact (List.nodup_cons.1 h).1 (List.mem_map.2 ⟨q, hq, he.symm⟩)
      simp only [alookup]
      rw [if_neg hne]
    rw [ih (List.nodup_cons.1 h).2 _ hfresh, List.map_cons, List.append_assoc]
    rfl

/-- C6 counterexample: for the initialized module `a.b` (trailing dot-segment
`b`), the configured score exposes it under the fully-qualified name but NOT
under the short name `b` — `ConfiguredScore.__init__` only strips a leading
`score.` prefix, it does not take the trailing dot-segment. -/
theorem C6_counterexample :
    shortName "a.b" = some "b" ∧
    (ConfiguredScore.make [] [("a.b", ⟨"a.b"⟩)]).getitem "a.b" = some ⟨"a.b"⟩ ∧
    (ConfiguredScore.make [] [("a.b", ⟨"a.b"⟩)]).attr "b" = none := by decide

/-- C6 (amended): every initialized module is exposed both by lookup under
its fully-qualified name and by attribute lookup under the fully-qualified
name with a leading `score.` prefix stripped when present (which equals the
trailing dot-segment only for names of the form `score.<segment>`), provided
the names and the stripped names are unique. -/
theorem C6_amended (confdict : List (Node × List (Node × String)))
    (modules : List (Node × ConfModule)) (name : Node) (m : ConfModule)
    (hnd : (modules.map Prod.fst).Nodup)
    (hnds : (modules.map (fun p => stripScore p.1)).Nodup)
    (hmem : (name, m) ∈ modules) :
    (ConfiguredScore.make confdict modules).getitem name = some m ∧
    (ConfiguredScore.make confdict modules).attr (stripScore name) = some m := by
  constructor
  · exact alookup_of_mem_nodup hnd hmem
  · show alookup (modules.foldl (fun acc p => dictInsert acc (stripScore p.1) p.2) []) _ = _
    rw [attrs_eq modules hnds [] (fun p _ => rfl), List.nil_append]
    apply alookup_of_mem_nodup
    · rw [List.map_map]
      exact hnds
    · exact List.mem_map.2 ⟨(name, m), hmem, rfl⟩

/-! ## C5 — aggregated missing required dependencies -/

theorem eq_nil_of_no_keys {α : Type} (M : List (Node × α))
    (h : ∀ d, alookup M d = none) : M = [] := by
  cases M with
  | nil => rfl
  | cons p rest => exact absurd (h p.1) (by simp [alookup])

theorem rm_inner_snd (modules : List (Node × String)) (name : Node)
    (mdeps : List (String × Bool)) :
    ∀ st : List Node × List (Node × List String),
    (mdeps.foldl (fun (st : List Node × List (Node × List String)) dp =>
      match alookup modules dp.1 with
      | some full => (st.1 ++ [full], st.2)
      | none =>
        if dp.2 then st
        else
          if (alookup st.2 dp.1).isSome then
            (st.1, updVal st.2 dp.1 (fun dl => dl ++ [name]))
          else (st.1, st.2 ++ [(dp.1, [name])])) st).2 =
    mdeps.foldl (msStep modules name) st.2 := by
  induction mdeps with
  | nil => intro st; rfl
  | cons dp rest ih =>
    intro st
    rw [List.foldl_cons, List.foldl_cons, ih]
    congr 1
    unfold msStep
    cases halo : alookup modules dp.1 with
    | some full => simp [halo]
    | none =>
      by_cases h2 : dp.2
      · simp [halo, h2]
      · by_cases hs : (alookup st.2 dp.1).isSome <;> simp [halo, h2, hs]

theorem msStep_lookup_ne (modules : List (Node × String)) (name : Node)
    (m : List (Node × List String)) {k : String} (opt : Bool) {d : Node}
    (hdk : d ≠ k) :
    alookup (msStep modules name m (k, opt)) d = alookup m d := by
  simp only [msStep]
  by_cases h1 : (alookup modules k).isSome ∨ opt = true
  · rw [if_pos h1]
  · rw [if_neg h1]
    by_cases hs : (alookup m k).isSome
    · rw [if_pos hs, alookup_updVal_ne _ _ hdk]
    · rw [if_neg hs, alookup_append]
      cases hmd : alookup m d with
      | some dl => rfl
      | none =>
        simp only [alookup]
        rw [if_neg (fun he : k = d => hdk he.symm)]

theorem msStep_lookup_self (modules : List (Node × String)) (name : Node)
    (m : List (Node × List String)) (k : String) (opt : Bool) :
    alookup (msStep modules name m (k, opt)) k =
      if alookup modules k = none ∧ opt = false then
        some ((alookup m k).getD [] ++ [name])
      else alookup m k := by
  simp only [msStep]
  by_cases hc : alookup modules k = none ∧ opt = false
  · have h1 : ¬((alookup modules k).isSome ∨ opt = true) := by
      rintro (h | h)
      · rw [hc.1] at h
        exact absurd h (by simp)
      · rw [hc.2] at h
        exact absurd h (by simp)
    rw [if_pos hc, if_neg h1]
    by_cases hs : (alookup m k).isSome
    · obtain ⟨dl0, hdl0⟩ := Option.isSome_iff_exists.1 hs
      rw [if_pos hs, alookup_updVal_self, hdl0]
      rfl
    · rw [if_neg hs, alookup_append, Option.not_isSome_iff_eq_none.1 hs]
      simp [alookup]
  · have h1 : (alookup modules k).isSome ∨ opt = true := by
      rcases Decidable.not_and_iff_or_not.1 hc with h | h
      · exact Or.inl (Option.ne_none_iff_isSome.1 h)
      · exact Or.inr (by simpa using h)
    rw [if_neg hc, if_pos h1]

theorem msStep_mem (modules : List (Node × String)) (name : Node)
    (m : List (Node × List String)) (dp : String × Bool) (d x : Node) :
    (∃ dl, alookup (msStep modules name m dp) d = some dl ∧ x ∈ dl) ↔
      ((∃ dl, alookup m d = some dl ∧ x ∈ dl) ∨
        (x = name ∧ (d, false) = dp ∧ alookup modules d = none)) := by
  obtain ⟨k, opt⟩ := dp
  by_cases hdk : d = k
  · subst hdk
    rw [msStep_lookup_self]
    by_cases hc : alookup modules d = none ∧ opt = false
    · rw [if_pos hc]
      obtain ⟨hmod, hopt⟩ := hc
      subst hopt
      cases hmd : alookup m d with
      | some dl0 => simp [hmd, hmod, List.mem_append]
      | none => simp [hmd, hmod]
    · rw [if_neg hc]
      constructor
      · exact Or.inl
      · rintro (h | ⟨hx, hdp, hd⟩)
        · exact h
        · injection hdp with h1 hopt
          exact absurd ⟨hd, hopt.symm⟩ hc
  · rw [msStep_lookup_ne modules name m opt hdk]
    constructor
    · exact Or.inl
    · rintro (h | ⟨hx, hdp, hd⟩)
      · exact h
      · injection hdp with h1 hopt
        exact absurd h1 hdk

theorem msStep_isSome (modules : List (Node × String)) (name : Node)
    (m : List (Node × List String)) (dp : String × Bool) (d : Node) :
    (alookup (msStep modules name m dp) d).isSome ↔
      ((alookup m d).isSome ∨ ((d, false) = dp ∧ alookup modules d = none)) := by
  obtain ⟨k, opt⟩ := dp
  by_cases hdk : d = k
  · subst hdk
    rw [msStep_lookup_self]
    by_cases hc : alookup modules d = none ∧ opt = false
    · rw [if_pos hc]
      simp [hc.1, hc.2]
    · rw [if_neg hc]
      constructor
      · exact Or.inl
      · rintro (h | ⟨hdp, hd⟩)
        · exact h
        · injection hdp with h1 hopt
          exact absurd ⟨hd, hopt.symm⟩ hc
  · rw [msStep_lookup_ne modules name m opt hdk]
    constructor
    · exact Or.inl
    · rintro (h | ⟨hdp, hd⟩)
      · exact h
      · injection hdp with h1 hopt
        exact absurd h1 hdk

theorem msFold_mem (modules : List (Node × String)) (name : Node)
    (mdeps : List (String × Bool)) :
    ∀ (m0 : List (Node × List String)) (d x : Node),
    (∃ dl, alookup (mdeps.foldl (msStep modules name) m0) d = some dl ∧ x ∈ dl) ↔
      ((∃ dl, alookup m0 d = some dl ∧ x ∈ dl) ∨
        (x = name ∧ (d, false) ∈ mdeps ∧ alookup modules d = none)) := by
  induction mdeps with
  | nil => intro m0 d x; simp
  | cons dp rest ih =>
    intro m0 d x
    rw [List.foldl_cons, ih, msStep_mem]
    constructor
    · rintro ((h | ⟨hx, hdp, hd⟩) | ⟨hx, hmem, hd⟩)
      · exact Or.inl h
      · exact Or.inr ⟨hx, by simp [← hdp], hd⟩
      · exact Or.inr ⟨hx, by simp [hmem], hd⟩
    · rintro (h | ⟨hx, hmem, hd⟩)
      · exact Or.inl (Or.inl h)
      · rcases List.mem_cons.1 hmem with hmem | hmem
        · exact Or.inl (Or.inr ⟨hx, hmem, hd⟩)
        · exact Or.inr ⟨hx, hmem, hd⟩

theorem msFold_isSome (modules : List (Node × String)) (name : Node)
    (mdeps : List (String × Bool)) :
    ∀ (m0 : List (Node × List String)) (d : Node),
    (alookup (mdeps.foldl (msStep modules name) m0) d).isSome ↔
      ((alookup m0 d).isSome ∨ ((d, false) ∈ mdeps ∧ alookup modules d = none)) := by
  induction mdeps with
  | nil => intro m0 d; simp
  | cons dp rest ih =>
    intro m0 d
    rw [List.foldl_cons, ih, msStep_isSome]
    constructor
    · rintro ((h | ⟨hdp, hd⟩) | ⟨hmem, hd⟩)
      · exact Or.inl h
      · exact Or.inr ⟨by simp [← hdp], hd⟩
      · exact Or.inr ⟨by simp [hmem], hd⟩
    · rintro (h | ⟨hmem, hd⟩)
      · exact Or.inl (Or.inl h)
      · rcases List.mem_cons.1 hmem with hmem | hmem
        · exact Or.inl (Or.inr ⟨hmem, hd⟩)
        · exact Or.inr ⟨hmem, hd⟩

theorem rmLoop_missing_mem (modules : List (Node × String)) :
    ∀ (entries : List (Node × List (String × Bool)))
      (acc : List (Node × List Node)) (m0 : List (Node × List String)) (d x : Node),
    (∃ dl, alookup (rmLoop modules entries acc m0).2 d = some dl ∧ x ∈ dl) ↔
      ((∃ dl, alookup m0 d = some dl ∧ x ∈ dl) ∨
        (∃ ps, (x, ps) ∈ entries ∧ (d, false) ∈ ps ∧ alookup modules d = none)) := by
  intro entries
  induction entries with
  | nil => intro acc m0 d x; simp [rmLoop]
  | cons e rest ih =>
    intro acc m0 d x
    obtain ⟨name, mdeps⟩ := e
    rw [rmLoop]
    rw [ih, rm_inner_snd, msFold_mem]
    constructor
    · rintro ((h | ⟨hx, hmem, hd⟩) | ⟨ps, hps, hmem, hd⟩)
      · exact Or.inl h
      · exact Or.inr ⟨mdeps, by simp [hx], hmem, hd⟩
      · exact Or.inr ⟨ps, by simp [hps], hmem, hd⟩
    · rintro (h | ⟨ps, hps, hmem, hd⟩)
      · exact Or.inl (Or.inl h)
      · rcases List.mem_cons.1 hps with hps | hps
        · injection hps with h1 h2
          exact Or.inl (Or.inr ⟨h1, h2 ▸ hmem, hd⟩)
        · exact Or.inr ⟨ps, hps, hmem, hd⟩

theorem rmLoop_missing_isSome (modules : List (Node × String)) :
    ∀ (entries : List (Node × List (String × Bool)))
      (acc : List (Node × List Node)) (m0 : List (Node × List String)) (d : Node),
    (alookup (rmLoop modules entries acc m0).2 d).isSome ↔
      ((alookup m0 d).isSome ∨
        (∃ m ps, (m, ps) ∈ entries ∧ (d, false) ∈ ps ∧ alookup modules d = none)) := by
  intro entries
  induction entries with
  | nil => intro acc m0 d; simp [rmLoop]
  | cons e rest ih =>
    intro acc m0 d
    obtain ⟨name, mdeps⟩ := e
    rw [rmLoop]
    rw [ih, rm_inner_snd, msFold_isSome]
    constructor
    · rintro ((h | ⟨hmem, hd⟩) | ⟨m, ps, hps, hmem, hd⟩)
      · exact Or.inl h
      · exact Or.inr ⟨name, mdeps, by simp, hmem, hd⟩
      · exact Or.inr ⟨m, ps, by simp [hps], hmem, hd⟩
    · rintro (h | ⟨m, ps, hps, hmem, hd⟩)
      · exact Or.inl (Or.inl h)
      · rcases List.mem_cons.1 hps with hps | hps
        · injection hps with h1 h2
          exact Or.inl (Or.inr ⟨h2 ▸ hmem, hd⟩)
        · exact Or.inr ⟨m, ps, hps, hmem, hd⟩

/-- C5: when at least one module declares a required (no-default) parameter
whose name matches no configured short name, `_init` fails — with the trace
of invoked module `init`s empty (no setup runs) — carrying ONE aggregated
`MissingDependencies` error whose entries are characterized exactly: a name
appears among the missing keys iff some module requires it as a no-default
parameter and it resolves to no configured module, and the module list
recorded under such a name contains precisely the modules that require it
(so unresolved optional parameters are silently dropped and the scan covers
every module, not just the first offender). -/
theorem C5_missing_required_aggregated
    (parse_list : String → List String) (reg : String → LocateResult)
    (minit : String → List (Node × String) → List (Node × ConfModule) → Option ConfModule)
    (confdict : List (Node × List (Node × String))) (v : String)
    (modules : List (Node × String)) (dmap : List (Node × List (String × Bool)))
    (hv : lookup2 confdict "score.init" "modules" = some v)
    (hm : buildModules (parse_list v) [] = .ok modules)
    (hc : collectLoop reg modules [] [] = .ok ([], dmap))
    (hmiss : ∃ m ps d, (m, ps) ∈ dmap ∧ (d, false) ∈ ps ∧ alookup modules d = none) :
    ∃ miss,
      _initT parse_list reg minit confdict = (.error (.missingDependencies miss), []) ∧
      miss ≠ [] ∧
      (∀ d, (alookup miss d).isSome ↔
        ∃ m ps, (m, ps) ∈ dmap ∧ (d, false) ∈ ps ∧ alookup modules d = none) ∧
      (∀ d dl, alookup miss d = some dl →
        ∀ m, (m ∈ dl ↔ ∃ ps, (m, ps) ∈ dmap ∧ (d, false) ∈ ps ∧ alookup modules d = none)) := by
  obtain ⟨m₀, ps₀, d₀, hm₀, hp₀, hd₀⟩ := hmiss
  refine ⟨(rmLoop modules dmap [] []).2, ?_, ?_, ?_, ?_⟩
  · have hne : (rmLoop modules dmap [] []).2 ≠ [] := by
      intro hnil
      have := (rmLoop_missing_isSome modules dmap [] [] d₀).2
        (Or.inr ⟨m₀, ps₀, hm₀, hp₀, hd₀⟩)
      rw [hnil] at this
      simp [alookup] at this
    unfold _initT
    simp only [hv]
    simp only [hm]
    unfold _collect_dependencies
    simp only [hc]
    rw [if_pos trivial]
    simp only [_remove_missing_optional_dependencies]
    rw [if_neg hne]
  · intro hnil
    have := (rmLoop_missing_isSome modules dmap [] [] d₀).2
      (Or.inr ⟨m₀, ps₀, hm₀, hp₀, hd₀⟩)
    rw [hnil] at this
    simp [alookup] at this
  · intro d
    rw [rmLoop_missing_isSome]
    simp [alookup]
  · intro d dl hdl m
    have hmm := rmLoop_missing_mem modules dmap [] [] d m
    rw [hdl] at hmm
    simp only [alookup, Option.some.injEq] at hmm
    constructor
    · intro hmem
      rcases hmm.1 ⟨dl, rfl, hmem⟩ with ⟨dl', hdl', _⟩ | ⟨ps, hps, hp, hd⟩
      · cases hdl'
      · exact ⟨ps, hps, hp, hd⟩
    · intro ⟨ps, hps, hp, hd⟩
      obtain ⟨dl', hdl', hmem⟩ := hmm.2 (Or.inr ⟨ps, hps, hp, hd⟩)
      exact hdl'.symm ▸ hmem

/-- C5 witness: the theorem applied to the concrete scenario — one module
`m.a` (short name `a`) whose `init` takes `(confdict, zap, opt=...)`, where
`zap` is required and unresolvable and `opt` is optional and unresolvable:
initialization fails with the aggregated missing map `{zap: [m.a]}`, no
`init` invoked. -/
theorem C5_witness :
    (lookup2 [("score.init", [("modules", "m.a")])] "score.init" "modules" = some "m.a" ∧
     buildModules ((fun _ => ["m.a"]) "m.a") [] = .ok [("a", "m.a")] ∧
     collectLoop (fun _ => .ok [("conf", false), ("zap", false), ("opt", true)])
       [("a", "m.a")] [] [] = .ok ([], [("m.a", [("zap", false), ("opt", true)])]) ∧
     (∃ m ps d, (m, ps) ∈ [("m.a", [("zap", false), ("opt", true)])] ∧ (d, false) ∈ ps ∧
       alookup [("a", "m.a")] d = none)) ∧
    (∃ miss,
      _initT (fun _ => ["m.a"]) (fun _ => .ok [("conf", false), ("zap", false), ("opt", true)])
        (fun _ _ _ => none) [("score.init", [("modules", "m.a")])] =
        (.error (.missingDependencies miss), []) ∧
      miss ≠ [] ∧
      (∀ d, (alookup miss d).isSome ↔
        ∃ m ps, (m, ps) ∈ [("m.a", [("zap", false), ("opt", true)])] ∧ (d, false) ∈ ps ∧
          alookup [("a", "m.a")] d = none) ∧
      (∀ d dl, alookup miss d = some dl →
        ∀ m, (m ∈ dl ↔ ∃ ps, (m, ps) ∈ [("m.a", [("zap", false), ("opt", true)])] ∧
          (d, false) ∈ ps ∧ alookup [("a", "m.a")] d = none))) :=
  ⟨⟨by decide, by decide, by decide,
    ⟨"m.a", [("zap", false), ("opt", true)], "zap", by decide, by decide, by decide⟩⟩,
   C5_missing_required_aggregated _ _ _ _ "m.a" [("a", "m.a")]
     [("m.a", [("zap", false), ("opt", true)])] (by decide) (by decide) (by decide)
     ⟨"m.a", [("zap", false), ("opt", true)], "zap", by decide, by decide, by decide⟩⟩

/-- C6 witness: the amended theorem applied at `score.ctx` (where the
attribute name is the trailing segment `ctx`) and at `a.b` (where it is the
full name `a.b`). -/
theorem C6_witness :
    (((([("score.ctx", ⟨"score.ctx"⟩), ("a.b", ⟨"a.b"⟩)]) : List (Node × ConfModule)).map
        Prod.fst).Nodup ∧
      ((([("score.ctx", ⟨"score.ctx"⟩), ("a.b", ⟨"a.b"⟩)]) : List (Node × ConfModule)).map
        (fun p => stripScore p.1)).Nodup) ∧
    (ConfiguredScore.make [] [("score.ctx", ⟨"score.ctx"⟩), ("a.b", ⟨"a.b"⟩)]).getitem
      "score.ctx" = some ⟨"score.ctx"⟩ ∧
    (ConfiguredScore.make [] [("score.ctx", ⟨"score.ctx"⟩), ("a.b", ⟨"a.b"⟩)]).attr
      (stripScore "score.ctx") = some ⟨"score.ctx"⟩ :=
  ⟨⟨by decide, by decide⟩,
    C6_amended [] [("score.ctx", ⟨"score.ctx"⟩), ("a.b", ⟨"a.b"⟩)] "score.ctx" ⟨"score.ctx"⟩
      (by decide) (by decide) (by decide)⟩

/-! ## C1 / C4 — the solve() algorithm: preprocess characterization -/

theorem preprocess_locl (E : DepMap) :
    ∀ rest : DepMap, (preprocessGo E rest).2 =
      (rest.filter (fun p => decide (p.2 ≠ []))).map Prod.fst := by
  intro rest
  induction rest with
  | nil => rfl
  | cons q rest ih =>
    obtain ⟨item, ds⟩ := q
    simp only [preprocessGo]
    by_cases hds : ds = []
    · subst hds
      rw [if_pos rfl]
      simpa [List.filter_cons] using ih
    · rw [if_neg hds]
      simp [List.filter_cons, hds, ih]

theorem preprocess_sorted_mem (E : DepMap) :
    ∀ (rest : DepMap) (x : Node),
      x ∈ (preprocessGo E rest).1 ↔
        ∃ p, p ∈ rest ∧
          ((p.2 = [] ∧ x = p.1) ∨ (p.2 ≠ [] ∧ x ∈ p.2 ∧ alookup E x = none)) := by
  intro rest
  induction rest with
  | nil =>
    intro x
    constructor
    · intro h
      exact absurd h (List.not_mem_nil x)
    · rintro ⟨p, hp, _⟩
      exact absurd hp (List.not_mem_nil p)
  | cons q rest ih =>
    intro x
    obtain ⟨item, ds⟩ := q
    simp only [preprocessGo]
    by_cases hds : ds = []
    · subst hds
      rw [if_pos rfl]
      constructor
      · intro hx
        rcases List.mem_cons.1 hx with hx | hx
        · exact ⟨(item, []), List.mem_cons_self _ _, Or.inl ⟨rfl, hx⟩⟩
        · obtain ⟨p, hp, hP⟩ := (ih x).1 hx
          exact ⟨p, List.mem_cons_of_mem _ hp, hP⟩
      · rintro ⟨p, hp, hP⟩
        rcases List.mem_cons.1 hp with hp | hp
        · subst hp
          rcases hP with ⟨_, hx⟩ | ⟨hne, _, _⟩
          · exact List.mem_cons.2 (Or.inl hx)
          · exact absurd rfl hne
        · exact List.mem_cons.2 (Or.inr ((ih x).2 ⟨p, hp, hP⟩))
    · rw [if_neg hds]
      constructor
      · intro hx
        rcases List.mem_append.1 hx with hx | hx
        · have hm := List.mem_filter.1 hx
          exact ⟨(item, ds), List.mem_cons_self _ _,
            Or.inr ⟨hds, hm.1, by simpa using hm.2⟩⟩
        · obtain ⟨p, hp, hP⟩ := (ih x).1 hx
          exact ⟨p, List.mem_cons_of_mem _ hp, hP⟩
      · rintro ⟨p, hp, hP⟩
        rcases List.mem_cons.1 hp with hp | hp
        · subst hp
          rcases hP with ⟨he, _⟩ | ⟨_, hmem, hnone⟩
          · exact absurd he hds
          · exact List.mem_append.2 (Or.inl (List.mem_filter.2 ⟨hmem, by simpa using hnone⟩))
        · exact List.mem_append.2 (Or.inr ((ih x).2 ⟨p, hp, hP⟩))

theorem preprocess_count_tracked (E : DepMap) (k : Node) (hk : (alookup E k).isSome) :
    ∀ rest : DepMap,
      ((preprocessGo E rest).1).count k =
        (rest.filter (fun p => decide (p.1 = k ∧ p.2 = []))).length := by
  intro rest
  induction rest with
  | nil => rfl
  | cons q rest ih =>
    obtain ⟨item, ds⟩ := q
    simp only [preprocessGo]
    by_cases hds : ds = []
    · subst hds
      rw [if_pos rfl]
      by_cases hik : item = k
      · subst hik
        simp [List.count_cons, List.filter_cons, ih]
      · simp [List.count_cons, List.filter_cons, hik, ih]
    · rw [if_neg hds]
      have hchunk : (ds.filter (fun d => decide (alookup E d = none))).count k = 0 := by
        rw [List.count_eq_zero]
        intro hmem
        have hdec := (List.mem_filter.1 hmem).2
        rw [decide_eq_true_iff] at hdec
        rw [hdec] at hk
        exact absurd hk (by simp)
      rw [List.count_append, hchunk, ih]
      simp [List.filter_cons, hds]

theorem preprocess_count_dep (E : DepMap) (d : Node) (hd : alookup E d = none) :
    ∀ rest : DepMap, (∀ p ∈ rest, (alookup E p.1).isSome) → (∀ p ∈ rest, p.2.Nodup) →
      ((preprocessGo E rest).1).count d =
        (rest.filter (fun p => decide (d ∈ p.2))).length := by
  intro rest
  induction rest with
  | nil => intro _ _; rfl
  | cons q rest ih =>
    intro hkeys hnd
    obtain ⟨item, ds⟩ := q
    have hrest := ih (fun p hp => hkeys p (List.mem_cons_of_mem _ hp))
      (fun p hp => hnd p (List.mem_cons_of_mem _ hp))
    simp only [preprocessGo]
    by_cases hds : ds = []
    · subst hds
      rw [if_pos rfl]
      have hne : item ≠ d := by
        intro he
        have hsome := hkeys (item, []) (List.mem_cons_self _ _)
        rw [he, hd] at hsome
        exact absurd hsome (by simp)
      simp [List.count_cons, List.filter_cons, hne, hrest]
    · rw [if_neg hds]
      have hchunk : (ds.filter (fun e => decide (alookup E e = none))).count d =
          if d ∈ ds then 1 else 0 := by
        rw [List.count_filter (by simpa using hd)]
        by_cases hmem : d ∈ ds
        · rw [if_pos hmem]
          exact List.count_eq_one_of_mem (hnd (item, ds) (List.mem_cons_self _ _)) hmem
        · rw [if_neg hmem]
          exact List.count_eq_zero.2 hmem
      rw [List.count_append, hchunk, hrest, List.filter_cons]
      by_cases hmem : d ∈ ds
      · rw [if_pos hmem, if_pos (by simpa using hmem)]
        rw [List.length_cons]
        omega
      · rw [if_neg hmem, if_neg (by simpa using hmem)]
        omega

theorem filter_key_length (E : DepMap) (hnd : (E.map Prod.fst).Nodup) (k : Node) :
    (E.filter (fun p => decide (p.1 = k ∧ p.2 = []))).length =
      if alookup E k = some [] then 1 else 0 := by
  induction E with
  | nil => simp [alookup]
  | cons q rest ih =>
    obtain ⟨item, ds⟩ := q
    have hnd2 : (rest.map Prod.fst).Nodup := (List.nodup_cons.1 hnd).2
    by_cases hik : item = k
    · subst hik
      have hknot : item ∉ rest.map Prod.fst := (List.nodup_cons.1 hnd).1
      have hfrest : (rest.filter (fun p => decide (p.1 = item ∧ p.2 = []))).length = 0 := by
        rw [List.length_eq_zero, List.filter_eq_nil_iff]
        intro p hp hdec
        rw [decide_eq_true_iff] at hdec
        exact hknot (hdec.1 ▸ List.mem_map_of_mem Prod.fst hp)
      by_cases hds : ds = []
      · subst hds
        simp only [alookup, List.filter_cons, hfrest]
        simp [hfrest]
        intro a b hab he
        exact absurd (he ▸ List.mem_map_of_mem Prod.fst hab) hknot
      · simp [alookup, List.filter_cons, hds, hfrest]
        intro a b hab he
        exact absurd (he ▸ List.mem_map_of_mem Prod.fst hab) hknot
    · have hik2 : ¬(item = k ∧ ds = []) := fun h => hik h.1
      simp only [List.filter_cons, alookup]
      rw [if_neg (by simpa using hik2), if_neg hik, ih hnd2]

theorem preprocess_inv (E : DepMap) (hwf : WFdep E) :
    SolveInv E (preprocessGo E E).1 E (preprocessGo E E).2 := by
  obtain ⟨hnd, hvals⟩ := hwf
  have hloclchar : ∀ k, k ∈ (preprocessGo E E).2 ↔
      ∃ ds₀, alookup E k = some ds₀ ∧ ds₀ ≠ [] := by
    intro k
    rw [preprocess_locl]
    constructor
    · intro hk
      obtain ⟨p, hp, hfst⟩ := List.mem_map.1 hk
      have hf := List.mem_filter.1 hp
      refine ⟨p.2, ?_, by simpa using hf.2⟩
      rw [← hfst]
      exact alookup_of_mem_nodup hnd hf.1
    · rintro ⟨ds₀, hds₀, hne⟩
      exact List.mem_map.2 ⟨(k, ds₀), List.mem_filter.2 ⟨alookup_mem hds₀, by simpa using hne⟩, rfl⟩
  have hsortcount : ∀ k ds₀, alookup E k = some ds₀ →
      ((preprocessGo E E).1).count k = if ds₀ = [] then 1 else 0 := by
    intro k ds₀ hds₀
    rw [preprocess_count_tracked E k (by rw [hds₀]; rfl), filter_key_length E hnd, hds₀]
    by_cases hne : ds₀ = []
    · simp [hne]
    · simp [hne]
  refine
    { keys_eq := rfl
      sub := ?_
      locl_nodup := ?_
      locl_sub := ?_
      locl_iff := ?_
      deps_cover := ?_
      deps_ne := ?_
      placed := ?_
      count_le := ?_
      count_dep := ?_ }
  · intro k ds ds₀ h1 h2
    rw [h1] at h2
    injection h2 with h2
    exact h2 ▸ List.Sublist.refl ds
  · rw [preprocess_locl]
    exact List.Nodup.sublist (List.Sublist.map Prod.fst (List.filter_sublist E)) hnd
  · intro k hk
    obtain ⟨ds₀, hds₀, _⟩ := (hloclchar k).1 hk
    rw [← alookup_isSome, hds₀]
    rfl
  · intro k hk
    obtain ⟨ds₀, hds₀⟩ := Option.isSome_iff_exists.1 ((alookup_isSome E k).2 hk)
    rw [hloclchar k]
    have hcount := hsortcount k ds₀ hds₀
    constructor
    · rintro ⟨ds₁, hds₁, hne⟩ hmem
      rw [hds₀] at hds₁
      injection hds₁ with hds₁
      subst hds₁
      rw [if_neg hne] at hcount
      rw [← List.count_pos_iff] at hmem
      omega
    · intro hnotmem
      refine ⟨ds₀, hds₀, ?_⟩
      intro hnil
      rw [if_pos hnil] at hcount
      have : 0 < ((preprocessGo E E).1).count k := by omega
      rw [List.count_pos_iff] at this
      exact hnotmem this
  · intro k _ ds ds₀ h1 h2
    rw [h1] at h2
    injection h2 with h2
    exact fun d hd => Or.inl (h2 ▸ hd)
  · intro k hk ds hds
    obtain ⟨ds₀, hds₀, hne⟩ := (hloclchar k).1 hk
    rw [hds₀] at hds
    injection hds with hds
    exact hds ▸ hne
  · intro p x q hsplit ds₀ hds₀ d hd
    have hx : x ∈ (preprocessGo E E).1 := by
      rw [hsplit]
      exact List.mem_append.2 (Or.inr (List.mem_cons_self _ _))
    obtain ⟨pr, hpr, hP⟩ := (preprocess_sorted_mem E E x).1 hx
    rcases hP with ⟨hnil, hxp⟩ | ⟨_, _, hnone⟩
    · have hpr2 : alookup E x = some pr.2 := by
        rw [hxp]
        exact alookup_of_mem_nodup hnd hpr
      rw [hds₀] at hpr2
      injection hpr2 with hthis
      rw [hthis.trans hnil] at hd
      exact absurd hd (List.not_mem_nil d)
    · rw [hnone] at hds₀
      cases hds₀
  · intro k hk
    obtain ⟨ds₀, hds₀⟩ := Option.isSome_iff_exists.1 ((alookup_isSome E k).2 hk)
    rw [hsortcount k ds₀ hds₀]
    by_cases hne : ds₀ = [] <;> simp [hne]
  · intro d hd
    rw [preprocess_count_dep E d ((alookup_eq_none E d).2 hd) E
      (fun p hp => (alookup_isSome E p.1).2 (List.mem_map_of_mem Prod.fst hp))
      (fun p hp => hvals p hp)]
    rfl

/-! ## solvePass lemmas -/

theorem pass_true_flag : ∀ (items s : List Node) (st : DepMap) (l : List Node),
    (solvePass items s st l true).2.2.2 = true := by
  intro items
  induction items with
  | nil => intro s st l; rfl
  | cons item items ih =>
    intro s st l
    simp only [solvePass]
    by_cases h1 : ((alookup st item).getD []).filter (fun d => decide (d ∈ s)) = []
    · rw [if_pos h1]
      exact ih s st l
    · rw [if_neg h1]
      by_cases h2 : ((alookup st item).getD []).all (fun d => decide (d ∈ s))
      · rw [if_pos h2]
        exact ih _ _ _
      · rw [if_neg h2]
        exact ih _ _ _

theorem pass_false_id : ∀ (items s : List Node) (st : DepMap) (l : List Node),
    (solvePass items s st l false).2.2.2 = false →
    solvePass items s st l false = (s, st, l, false) ∧
    ∀ x ∈ items, ((alookup st x).getD []).filter (fun d => decide (d ∈ s)) = [] := by
  intro items
  induction items with
  | nil =>
    intro s st l _
    exact ⟨rfl, fun x hx => absurd hx (List.not_mem_nil x)⟩
  | cons item items ih =>
    intro s st l hfalse
    simp only [solvePass] at hfalse ⊢
    by_cases h1 : ((alookup st item).getD []).filter (fun d => decide (d ∈ s)) = []
    · rw [if_pos h1] at hfalse ⊢
      obtain ⟨heq, hall⟩ := ih s st l hfalse
      refine ⟨heq, ?_⟩
      intro x hx
      rcases List.mem_cons.1 hx with hx | hx
      · exact hx ▸ h1
      · exact hall x hx
    · rw [if_neg h1] at hfalse
      by_cases h2 : ((alookup st item).getD []).all (fun d => decide (d ∈ s))
      · rw [if_pos h2] at hfalse
        rw [pass_true_flag] at hfalse
        cases hfalse
      · rw [if_neg h2] at hfalse
        rw [pass_true_flag] at hfalse
        cases hfalse

theorem pass_s_mono : ∀ (items s : List Node) (st : DepMap) (l : List Node) (u : Bool),
    ∃ t, (solvePass items s st l u).1 = s ++ t := by
  intro items
  induction items with
  | nil => intro s st l u; exact ⟨[], (List.append_nil s).symm⟩
  | cons item items ih =>
    intro s st l u
    simp only [solvePass]
    by_cases h1 : ((alookup st item).getD []).filter (fun d => decide (d ∈ s)) = []
    · rw [if_pos h1]
      exact ih s st l u
    · rw [if_neg h1]
      by_cases h2 : ((alookup st item).getD []).all (fun d => decide (d ∈ s))
      · rw [if_pos h2]
        obtain ⟨t, ht⟩ := ih (s ++ [item]) st (l.filter (fun k => decide (k ≠ item))) true
        exact ⟨[item] ++ t, by rw [ht, List.append_assoc]⟩
      · rw [if_neg h2]
        exact ih _ _ _ _

theorem pass_l_sub : ∀ (items s : List Node) (st : DepMap) (l : List Node) (u : Bool),
    ∀ x ∈ (solvePass items s st l u).2.2.1, x ∈ l := by
  intro items
  induction items with
  | nil => intro s st l u x hx; exact hx
  | cons item items ih =>
    intro s st l u x hx
    simp only [solvePass] at hx
    by_cases h1 : ((alookup st item).getD []).filter (fun d => decide (d ∈ s)) = []
    · rw [if_pos h1] at hx
      exact ih s st l u x hx
    · rw [if_neg h1] at hx
      by_cases h2 : ((alookup st item).getD []).all (fun d => decide (d ∈ s))
      · rw [if_pos h2] at hx
        have := ih _ _ _ _ x hx
        exact (List.mem_filter.1 this).1
      · rw [if_neg h2] at hx
        exact ih _ _ _ _ x hx

theorem append_singleton_split {α : Type} :
    ∀ (p s : List α) (a x : α) (q : List α), s ++ [a] = p ++ x :: q →
    (p = s ∧ x = a ∧ q = []) ∨ (∃ q', q = q' ++ [a] ∧ s = p ++ x :: q') := by
  intro p
  induction p with
  | nil =>
    intro s a x q h
    cases s with
    | nil =>
      simp only [List.nil_append] at h
      injection h with h1 h2
      exact Or.inl ⟨rfl, h1.symm, h2.symm⟩
    | cons b s' =>
      simp only [List.cons_append, List.nil_append] at h
      injection h with h1 h2
      exact Or.inr ⟨s', h2.symm, by rw [List.nil_append, h1]⟩
  | cons c p' ih =>
    intro s a x q h
    cases s with
    | nil =>
      simp only [List.nil_append, List.cons_append] at h
      injection h with h1 h2
      exact absurd h2.symm (by simp)
    | cons b s' =>
      simp only [List.cons_append] at h
      injection h with h1 h2
      rcases ih s' a x q h2 with ⟨hp, hx, hq⟩ | ⟨q', hq, hs⟩
      · exact Or.inl ⟨by rw [h1, hp], hx, hq⟩
      · exact Or.inr ⟨q', hq, by rw [List.cons_append, ← hs, h1]⟩

theorem inv_append (E : DepMap) {s : List Node} {st : DepMap} {l : List Node} {item : Node}
    (hinv : SolveInv E s st l) (hitem : item ∈ l)
    (hall : ∀ d ∈ (alookup st item).getD [], d ∈ s) :
    SolveInv E (s ++ [item]) st (l.filter (fun k => decide (k ≠ item))) := by
  have hkeys : item ∈ E.map Prod.fst := hinv.locl_sub item hitem
  have hnots : item ∉ s := (hinv.locl_iff item hkeys).1 hitem
  have hstkeys : item ∈ st.map Prod.fst := by rw [hinv.keys_eq]; exact hkeys
  obtain ⟨ds, hds⟩ := Option.isSome_iff_exists.1 ((alookup_isSome st item).2 hstkeys)
  obtain ⟨ds₀, hds₀⟩ := Option.isSome_iff_exists.1 ((alookup_isSome E item).2 hkeys)
  have hds_s : ∀ d ∈ ds, d ∈ s := by
    intro d hd
    apply hall
    rw [hds]
    exact hd
  have hcover0 : ∀ d ∈ ds₀, d ∈ s := by
    intro d hd
    rcases hinv.deps_cover item hitem ds ds₀ hds hds₀ d hd with h | h
    · exact hds_s d h
    · exact h
  refine
    { keys_eq := hinv.keys_eq
      sub := hinv.sub
      locl_nodup := hinv.locl_nodup.filter _
      locl_sub := ?_
      locl_iff := ?_
      deps_cover := ?_
      deps_ne := ?_
      placed := ?_
      count_le := ?_
      count_dep := ?_ }
  · intro k hk
    exact hinv.locl_sub k (List.mem_filter.1 hk).1
  · intro k hk
    constructor
    · intro hmem
      have h1 := List.mem_filter.1 hmem
      have hkne : k ≠ item := by simpa using h1.2
      have hknots : k ∉ s := (hinv.locl_iff k hk).1 h1.1
      intro hks
      rcases List.mem_append.1 hks with h | h
      · exact hknots h
      · exact hkne (by simpa using h)
    · intro hks
      have hkns : k ∉ s := fun h => hks (List.mem_append.2 (Or.inl h))
      have hkne : k ≠ item := fun he => hks (List.mem_append.2 (Or.inr (by simp [he])))
      exact List.mem_filter.2 ⟨(hinv.locl_iff k hk).2 hkns, by simpa using hkne⟩
  · intro k hkmem ds' ds₀' h1 h2 d hd
    rcases hinv.deps_cover k (List.mem_filter.1 hkmem).1 ds' ds₀' h1 h2 d hd with h | h
    · exact Or.inl h
    · exact Or.inr (List.mem_append.2 (Or.inl h))
  · intro k hkmem ds' h1
    exact hinv.deps_ne k (List.mem_filter.1 hkmem).1 ds' h1
  · intro p x q hsplit ds₀' hds₀' d hd
    rcases append_singleton_split p s item x q hsplit with ⟨hp, hx, hq⟩ | ⟨q', hq, hs⟩
    · subst hx
      rw [hds₀] at hds₀'
      injection hds₀' with he
      subst he
      refine ⟨by rw [hp]; exact hcover0 d hd, ?_⟩
      intro hmem
      rcases List.mem_cons.1 hmem with he | he
      · exact hnots (he ▸ hcover0 d hd)
      · rw [hq] at he
        exact absurd he (List.not_mem_nil d)
    · obtain ⟨hp1, hp2⟩ := hinv.placed p x q' hs ds₀' hds₀' d hd
      refine ⟨hp1, ?_⟩
      intro hmem
      rcases List.mem_cons.1 hmem with he | he
      · exact hp2 (List.mem_cons.2 (Or.inl he))
      · rw [hq] at he
        rcases List.mem_append.1 he with he | he
        · exact hp2 (List.mem_cons.2 (Or.inr he))
        · have hdeq : d = item := by simpa using he
          have hdins : d ∈ s := by
            rw [hs]
            exact List.mem_append.2 (Or.inl hp1)
          exact hnots (hdeq ▸ hdins)
  · intro k hk
    rw [List.count_append]
    by_cases hkit : k = item
    · subst hkit
      have h0 : s.count k = 0 := List.count_eq_zero.2 hnots
      have h1 : ([k] : List Node).count k = 1 := by simp
      rw [h0, h1]
    · have h0 : ([item] : List Node).count k = 0 := by
        rw [List.count_eq_zero]
        intro hmem
        exact hkit (by simpa using hmem)
      rw [h0, Nat.add_zero]
      exact hinv.count_le k hk
  · intro d hd
    rw [List.count_append]
    have hne : d ≠ item := fun he => hd (he ▸ hkeys)
    have h0 : ([item] : List Node).count d = 0 := by
      rw [List.count_eq_zero]
      intro hmem
      exact hne (by simpa using hmem)
    rw [h0, Nat.add_zero]
    exact hinv.count_dep d hd

theorem inv_update (E : DepMap) {s : List Node} {st : DepMap} {l : List Node} {item : Node}
    {ds : List Node} (hinv : SolveInv E s st l) (hitem : item ∈ l)
    (hds : alookup st item = some ds) (hex : ∃ d ∈ ds, d ∉ s) :
    SolveInv E s (storeSet st item (ds.filter (fun d => decide (d ∉ s)))) l := by
  have hlkup : alookup (storeSet st item (ds.filter (fun d => decide (d ∉ s)))) item =
      some (ds.filter (fun d => decide (d ∉ s))) := by
    unfold storeSet
    rw [alookup_updVal_self, hds]
    rfl
  have hlkne : ∀ k, k ≠ item →
      alookup (storeSet st item (ds.filter (fun d => decide (d ∉ s)))) k = alookup st k := by
    intro k hk
    unfold storeSet
    rw [alookup_updVal_ne _ _ hk]
  refine
    { keys_eq := ?_
      sub := ?_
      locl_nodup := hinv.locl_nodup
      locl_sub := hinv.locl_sub
      locl_iff := hinv.locl_iff
      deps_cover := ?_
      deps_ne := ?_
      placed := hinv.placed
      count_le := hinv.count_le
      count_dep := hinv.count_dep }
  · unfold storeSet
    rw [updVal_keys]
    exact hinv.keys_eq
  · intro k ds' ds₀' h1 h2
    by_cases hk : k = item
    · subst hk
      rw [hlkup] at h1
      injection h1 with h1
      subst h1
      exact (List.filter_sublist ds).trans (hinv.sub k ds ds₀' hds h2)
    · rw [hlkne k hk] at h1
      exact hinv.sub k ds' ds₀' h1 h2
  · intro k hkmem ds' ds₀' h1 h2 d hd
    by_cases hk : k = item
    · subst hk
      rw [hlkup] at h1
      injection h1 with h1
      subst h1
      rcases hinv.deps_cover k hkmem ds ds₀' hds h2 d hd with h | h
      · by_cases hdin : d ∈ s
        · exact Or.inr hdin
        · exact Or.inl (List.mem_filter.2 ⟨h, by simpa using hdin⟩)
      · exact Or.inr h
    · rw [hlkne k hk] at h1
      exact hinv.deps_cover k hkmem ds' ds₀' h1 h2 d hd
  · intro k hkmem ds' h1
    by_cases hk : k = item
    · subst hk
      rw [hlkup] at h1
      injection h1 with h1
      subst h1
      obtain ⟨d, hd, hdns⟩ := hex
      exact List.ne_nil_of_mem (List.mem_filter.2 ⟨hd, by simpa using hdns⟩)
    · rw [hlkne k hk] at h1
      exact hinv.deps_ne k hkmem ds' h1

theorem pass_inv (E : DepMap) :
    ∀ (items s : List Node) (st : DepMap) (l : List Node) (u : Bool),
    SolveInv E s st l → (∀ x ∈ items, x ∈ l) → items.Nodup →
    SolveInv E (solvePass items s st l u).1 (solvePass items s st l u).2.1
      (solvePass items s st l u).2.2.1 := by
  intro items
  induction items with
  | nil => intro s st l u hinv _ _; exact hinv
  | cons item items ih =>
    intro s st l u hinv hsub hnd
    have hitem : item ∈ l := hsub item (List.mem_cons_self _ _)
    simp only [solvePass]
    by_cases h1 : ((alookup st item).getD []).filter (fun d => decide (d ∈ s)) = []
    · rw [if_pos h1]
      exact ih s st l u hinv (fun x hx => hsub x (List.mem_cons_of_mem _ hx))
        (List.nodup_cons.1 hnd).2
    · rw [if_neg h1]
      by_cases h2 : ((alookup st item).getD []).all (fun d => decide (d ∈ s))
      · rw [if_pos h2]
        have hall : ∀ d ∈ (alookup st item).getD [], d ∈ s := by
          intro d hd
          simpa using List.all_eq_true.1 h2 d hd
        apply ih
        · exact inv_append E hinv hitem hall
        · intro x hx
          refine List.mem_filter.2 ⟨hsub x (List.mem_cons_of_mem _ hx), ?_⟩
          have hne : x ≠ item := fun he => (List.nodup_cons.1 hnd).1 (he ▸ hx)
          simpa using hne
        · exact (List.nodup_cons.1 hnd).2
      · rw [if_neg h2]
        have hstkeys : item ∈ st.map Prod.fst := by
          rw [hinv.keys_eq]
          exact hinv.locl_sub item hitem
        obtain ⟨ds, hds⟩ := Option.isSome_iff_exists.1 ((alookup_isSome st item).2 hstkeys)
        have hgd : (alookup st item).getD [] = ds := by rw [hds]; rfl
        rw [hgd]
        have hex : ∃ d ∈ ds, d ∉ s := by
          by_contra hcon
          push_neg at hcon
          apply h2
          rw [List.all_eq_true]
          intro d hd
          rw [hgd] at hd
          simpa using hcon d hd
        apply ih
        · exact inv_update E hinv hitem hds hex
        · intro x hx
          exact hsub x (List.mem_cons_of_mem _ hx)
        · exact (List.nodup_cons.1 hnd).2

/-! ## Weight (termination measure) lemmas -/

theorem weight_cons (st : DepMap) (a : Node) (l : List Node) :
    weight st (a :: l) = (1 + ((alookup st a).getD []).length) + weight st l := by
  simp [weight]

theorem weight_storeSet_le (st : DepMap) (l : List Node) (k : Node) (v ds : List Node)
    (hds : alookup st k = some ds) (hle : v.length ≤ ds.length) :
    weight (storeSet st k v) l ≤ weight st l := by
  induction l with
  | nil => exact Nat.le_refl _
  | cons a l ih =>
    rw [weight_cons, weight_cons]
    refine Nat.add_le_add ?_ ih
    by_cases hak : a = k
    · subst hak
      unfold storeSet
      rw [alookup_updVal_self, hds]
      simpa using hle
    · unfold storeSet
      rw [alookup_updVal_ne _ _ hak]

theorem weight_storeSet_lt (st : DepMap) (l : List Node) (k : Node) (v ds : List Node)
    (hds : alookup st k = some ds) (hlt : v.length < ds.length) (hmem : k ∈ l) :
    weight (storeSet st k v) l < weight st l := by
  induction l with
  | nil => exact absurd hmem (List.not_mem_nil k)
  | cons a l ih =>
    rw [weight_cons, weight_cons]
    by_cases hak : a = k
    · subst hak
      have hhead : 1 + ((alookup (storeSet st a v) a).getD []).length <
          1 + ((alookup st a).getD []).length := by
        unfold storeSet
        rw [alookup_updVal_self, hds]
        simpa using hlt
      exact Nat.add_lt_add_of_lt_of_le hhead
        (weight_storeSet_le st l a v ds hds (Nat.le_of_lt hlt))
    · have hmem' : k ∈ l := by
        rcases List.mem_cons.1 hmem with h | h
        · exact absurd h.symm hak
        · exact h
      have hhead : (alookup (storeSet st k v) a).getD [] = (alookup st a).getD [] := by
        unfold storeSet
        rw [alookup_updVal_ne _ _ hak]
      rw [hhead]
      exact Nat.add_lt_add_left (ih hmem') _

theorem weight_filter_le (st : DepMap) (l : List Node) (p : Node → Bool) :
    weight st (l.filter p) ≤ weight st l := by
  induction l with
  | nil => exact Nat.le_refl _
  | cons a l ih =>
    rw [List.filter_cons]
    by_cases hpa : p a = true
    · rw [if_pos hpa, weight_cons, weight_cons]
      exact Nat.add_le_add_left ih _
    · rw [if_neg hpa, weight_cons]
      exact Nat.le_trans ih (Nat.le_add_left _ _)

theorem weight_filter_lt (st : DepMap) (l : List Node) (item : Node) (hmem : item ∈ l) :
    weight st (l.filter (fun k => decide (k ≠ item))) < weight st l := by
  induction l with
  | nil => exact absurd hmem (List.not_mem_nil item)
  | cons a l ih =>
    rw [List.filter_cons]
    by_cases hai : a = item
    · subst hai
      rw [if_neg (by simp), weight_cons]
      calc weight st (l.filter (fun k => decide (k ≠ a))) ≤ weight st l :=
            weight_filter_le st l _
        _ < (1 + ((alookup st a).getD []).length) + weight st l := by omega
    · rw [if_pos (by simpa using hai), weight_cons, weight_cons]
      have hmem' : item ∈ l := by
        rcases List.mem_cons.1 hmem with h | h
        · exact absurd h.symm hai
        · exact h
      exact Nat.add_lt_add_left (ih hmem') _

theorem pass_weight_le : ∀ (items s : List Node) (st : DepMap) (l : List Node) (u : Bool),
    weight (solvePass items s st l u).2.1 (solvePass items s st l u).2.2.1 ≤ weight st l := by
  intro items
  induction items with
  | nil => intro s st l u; exact Nat.le_refl _
  | cons item items ih =>
    intro s st l u
    simp only [solvePass]
    by_cases h1 : ((alookup st item).getD []).filter (fun d => decide (d ∈ s)) = []
    · rw [if_pos h1]
      exact ih s st l u
    · rw [if_neg h1]
      have hds : alookup st item = some ((alookup st item).getD []) := by
        cases halk : alookup st item with
        | none =>
          rw [halk] at h1
          exact absurd rfl h1
        | some ds => rfl
      by_cases h2 : ((alookup st item).getD []).all (fun d => decide (d ∈ s))
      · rw [if_pos h2]
        exact Nat.le_trans (ih _ _ _ _) (weight_filter_le st l _)
      · rw [if_neg h2]
        refine Nat.le_trans (ih _ _ _ _) ?_
        exact weight_storeSet_le st l item _ _ hds (List.length_filter_le _ _)

theorem pass_weight_lt : ∀ (items s : List Node) (st : DepMap) (l : List Node),
    (∀ x ∈ items, x ∈ l) →
    (solvePass items s st l false).2.2.2 = true →
    weight (solvePass items s st l false).2.1 (solvePass items s st l false).2.2.1 <
      weight st l := by
  intro items
  induction items with
  | nil =>
    intro s st l _ hflag
    cases hflag
  | cons item items ih =>
    intro s st l hsub hflag
    have hitem : item ∈ l := hsub item (List.mem_cons_self _ _)
    simp only [solvePass] at hflag ⊢
    by_cases h1 : ((alookup st item).getD []).filter (fun d => decide (d ∈ s)) = []
    · rw [if_pos h1] at hflag ⊢
      exact ih s st l (fun x hx => hsub x (List.mem_cons_of_mem _ hx)) hflag
    · rw [if_neg h1] at hflag ⊢
      have hds : alookup st item = some ((alookup st item).getD []) := by
        cases halk : alookup st item with
        | none =>
          rw [halk] at h1
          exact absurd rfl h1
        | some ds => rfl
      by_cases h2 : ((alookup st item).getD []).all (fun d => decide (d ∈ s))
      · rw [if_pos h2] at hflag ⊢
        exact Nat.lt_of_le_of_lt (pass_weight_le _ _ _ _ _) (weight_filter_lt st l item hitem)
      · rw [if_neg h2] at hflag ⊢
        refine Nat.lt_of_le_of_lt (pass_weight_le _ _ _ _ _) ?_
        refine weight_storeSet_lt st l item _ _ hds ?_ hitem
        rw [List.length_filter_lt_length_iff_exists]
        obtain ⟨d, hd⟩ := List.exists_mem_of_ne_nil _ h1
        have hdm := List.mem_filter.1 hd
        exact ⟨d, hdm.1, by simpa using hdm.2⟩

/-! ## The while loop -/

theorem loopF_fix : ∀ (fuel : Nat) (s : List Node) (st : DepMap) (l : List Node),
    weight st l < fuel →
    (solvePass (solveLoopF fuel s st l).2.2 (solveLoopF fuel s st l).1
      (solveLoopF fuel s st l).2.1 (solveLoopF fuel s st l).2.2 false).2.2.2 = false := by
  intro fuel
  induction fuel with
  | zero =>
    intro s st l hw
    exact absurd hw (Nat.not_lt_zero _)
  | succ n ih =>
    intro s st l hw
    simp only [solveLoopF]
    rcases hps : solvePass l s st l false with ⟨s', st', l', u'⟩
    cases u' with
    | true =>
      simp only []
      apply ih
      have hlt := pass_weight_lt l s st l (fun x hx => hx) (by rw [hps])
      rw [hps] at hlt
      exact Nat.lt_of_lt_of_le hlt (Nat.le_of_lt_succ hw)
    | false =>
      simp only []
      obtain ⟨heq, _⟩ := pass_false_id l s st l (by rw [hps])
      rw [heq] at hps
      injection hps with e1 hps
      injection hps with e2 hps
      injection hps with e3 _
      rw [← e1, ← e2, ← e3, heq]

theorem loopF_inv (E : DepMap) : ∀ (fuel : Nat) (s : List Node) (st : DepMap) (l : List Node),
    SolveInv E s st l →
    SolveInv E (solveLoopF fuel s st l).1 (solveLoopF fuel s st l).2.1
      (solveLoopF fuel s st l).2.2 := by
  intro fuel
  induction fuel with
  | zero => intro s st l hinv; exact hinv
  | succ n ih =>
    intro s st l hinv
    simp only [solveLoopF]
    have hstep := pass_inv E l s st l false hinv (fun x hx => hx) hinv.locl_nodup
    rcases hps : solvePass l s st l false with ⟨s', st', l', u'⟩
    rw [hps] at hstep
    cases u' with
    | true => exact ih s' st' l' hstep
    | false => exact hstep

theorem loopF_s_mono : ∀ (fuel : Nat) (s : List Node) (st : DepMap) (l : List Node),
    ∃ t, (solveLoopF fuel s st l).1 = s ++ t := by
  intro fuel
  induction fuel with
  | zero => intro s st l; exact ⟨[], (List.append_nil s).symm⟩
  | succ n ih =>
    intro s st l
    simp only [solveLoopF]
    have hmono := pass_s_mono l s st l false
    rcases hps : solvePass l s st l false with ⟨s', st', l', u'⟩
    rw [hps] at hmono
    obtain ⟨t1, ht1⟩ := hmono
    cases u' with
    | true =>
      obtain ⟨t2, ht2⟩ := ih s' st' l'
      exact ⟨t1 ++ t2, by rw [ht2, show s' = s ++ t1 from ht1, List.append_assoc]⟩
    | false => exact ⟨t1, ht1⟩

theorem loopF_l_sub : ∀ (fuel : Nat) (s : List Node) (st : DepMap) (l : List Node),
    ∀ x ∈ (solveLoopF fuel s st l).2.2, x ∈ l := by
  intro fuel
  induction fuel with
  | zero => intro s st l x hx; exact hx
  | succ n ih =>
    intro s st l x
    simp only [solveLoopF]
    have hsub := pass_l_sub l s st l false
    rcases hps : solvePass l s st l false with ⟨s', st', l', u'⟩
    rw [hps] at hsub
    cases u' with
    | true =>
      intro hx
      exact hsub x (ih s' st' l' x hx)
    | false => exact hsub x

/-! ## Consequences of the fixpoint -/

theorem split_at_indexOf {l : List Node} {a : Node} (h : a ∈ l) :
    l = l.take (l.indexOf a) ++ a :: l.drop (l.indexOf a + 1) := by
  induction l with
  | nil => cases h
  | cons b l ih =>
    by_cases hba : b = a
    · subst hba
      rw [List.indexOf_cons_self]
      rfl
    · have hmem : a ∈ l := by
        rcases List.mem_cons.1 h with h | h
        · exact absurd h.symm hba
        · exact h
      rw [List.indexOf_cons_ne _ hba]
      show b :: l = (b :: l).take (l.indexOf a + 1) ++ a :: (b :: l).drop (l.indexOf a + 1 + 1)
      rw [List.take_succ_cons, List.drop_succ_cons]
      rw [List.cons_append]
      rw [← ih hmem]

theorem indexOf_lt_of_mem_take {b : Node} :
    ∀ {l : List Node} {i : Nat}, b ∈ l.take i → l.indexOf b < i := by
  intro l
  induction l with
  | nil =>
    intro i h
    rw [List.take_nil] at h
    cases h
  | cons a l ih =>
    intro i h
    cases i with
    | zero => cases h
    | succ i =>
      rw [List.take_succ_cons] at h
      by_cases hab : a = b
      · subst hab
        rw [List.indexOf_cons_self]
        exact Nat.succ_pos i
      · rw [List.indexOf_cons_ne _ hab]
        rcases List.mem_cons.1 h with h | h
        · exact absurd h.symm hab
        · exact Nat.succ_lt_succ (ih h)

theorem placed_rank {E : DepMap} {s : List Node}
    (hplaced : ∀ p x q, s = p ++ x :: q → ∀ ds₀, alookup E x = some ds₀ →
      ∀ d ∈ ds₀, d ∈ p ∧ d ∉ x :: q)
    {a b : Node} (hedge : hasEdge E a b) (ha : a ∈ s) :
    b ∈ s ∧ s.indexOf b < s.indexOf a := by
  obtain ⟨ds₀, hds₀, hb⟩ := hedge
  have hsplit := split_at_indexOf ha
  obtain ⟨hp, _⟩ := hplaced _ _ _ hsplit ds₀ hds₀ b hb
  exact ⟨List.mem_of_mem_take hp, indexOf_lt_of_mem_take hp⟩

theorem transGen_rank {E : DepMap} {s : List Node}
    (hplaced : ∀ p x q, s = p ++ x :: q → ∀ ds₀, alookup E x = some ds₀ →
      ∀ d ∈ ds₀, d ∈ p ∧ d ∉ x :: q)
    {a b : Node} (h : Relation.TransGen (hasEdge E) a b) (ha : a ∈ s) :
    b ∈ s ∧ s.indexOf b < s.indexOf a := by
  induction h with
  | single he => exact placed_rank hplaced he ha
  | tail _ hbc ihab =>
    obtain ⟨hb, hrank⟩ := ihab
    obtain ⟨hc, hrank2⟩ := placed_rank hplaced hbc hb
    exact ⟨hc, Nat.lt_trans hrank2 hrank⟩

theorem fix_closed (E : DepMap) {s : List Node} {st : DepMap} {l : List Node}
    (hwf : WFdep E) (hinv : SolveInv E s st l)
    (hfix : ∀ x ∈ l, ((alookup st x).getD []).filter (fun d => decide (d ∈ s)) = [])
    (hsorted0 : ∀ x ∈ (preprocessGo E E).1, x ∈ s)
    (hlsub : ∀ x ∈ l, x ∈ (preprocessGo E E).2) :
    ∀ k ∈ l, ∃ ds, alookup st k = some ds ∧ ds ≠ [] ∧ (∀ d ∈ ds, d ∈ l) ∧
      ∀ d ∈ ds, hasEdge E k d := by
  intro k hk
  have hkeys : k ∈ E.map Prod.fst := hinv.locl_sub k hk
  have hstkeys : k ∈ st.map Prod.fst := by rw [hinv.keys_eq]; exact hkeys
  obtain ⟨ds, hds⟩ := Option.isSome_iff_exists.1 ((alookup_isSome st k).2 hstkeys)
  obtain ⟨ds₀, hds₀⟩ := Option.isSome_iff_exists.1 ((alookup_isSome E k).2 hkeys)
  have hsubl := hinv.sub k ds ds₀ hds hds₀
  have hnz : ds₀ ≠ [] := by
    have hx := hlsub k hk
    rw [preprocess_locl] at hx
    obtain ⟨p, hp, hfst⟩ := List.mem_map.1 hx
    have hf := List.mem_filter.1 hp
    have hlk : alookup E k = some p.2 := by
      rw [← hfst]
      exact alookup_of_mem_nodup hwf.1 hf.1
    rw [hds₀] at hlk
    injection hlk with hlk
    intro hnil
    have hne2 : p.2 ≠ [] := by simpa using hf.2
    exact hne2 (by rw [← hlk, hnil])
  have hnots : ∀ d ∈ ds, d ∉ s := by
    intro d hd
    have hfx := hfix k hk
    rw [hds] at hfx
    have := List.filter_eq_nil_iff.1 hfx d hd
    simpa using this
  refine ⟨ds, hds, hinv.deps_ne k hk ds hds, ?_, ?_⟩
  · intro d hd
    have hdnots : d ∉ s := hnots d hd
    have hdkeys : d ∈ E.map Prod.fst := by
      by_contra hcon
      have hmem : d ∈ (preprocessGo E E).1 := by
        rw [preprocess_sorted_mem]
        exact ⟨(k, ds₀), alookup_mem hds₀,
          Or.inr ⟨hnz, hsubl.subset hd, (alookup_eq_none E d).2 hcon⟩⟩
      exact hdnots (hsorted0 d hmem)
    exact (hinv.locl_iff d hdkeys).2 hdnots
  · intro d hd
    exact ⟨ds₀, hds₀, hsubl.subset hd⟩

theorem exists_cycle_of_closed {E : DepMap} {S : List Node} (hne : S ≠ [])
    (hstep : ∀ k ∈ S, ∃ d, d ∈ S ∧ hasEdge E k d) :
    ∃ x, Relation.TransGen (hasEdge E) x x := by
  classical
  obtain ⟨a0, ha0⟩ := List.exists_mem_of_ne_nil S hne
  let f : {x // x ∈ S} → {x // x ∈ S} :=
    fun x => ⟨(hstep x.1 x.2).choose, (hstep x.1 x.2).choose_spec.1⟩
  have hf : ∀ x : {x // x ∈ S}, hasEdge E x.1 (f x).1 :=
    fun x => (hstep x.1 x.2).choose_spec.2
  let g : Nat → {x // x ∈ S} := fun n => f^[n] ⟨a0, ha0⟩
  have hg : ∀ n, hasEdge E (g n).1 (g (n + 1)).1 := by
    intro n
    have hstep1 : g (n + 1) = f (g n) := Function.iterate_succ_apply' f n _
    rw [hstep1]
    exact hf (g n)
  have hchain : ∀ m n, m < n → Relation.TransGen (hasEdge E) (g m).1 (g n).1 := by
    intro m n h
    induction n with
    | zero => exact absurd h (Nat.not_lt_zero m)
    | succ n ihn =>
      rcases Nat.lt_succ_iff_lt_or_eq.1 h with h | h
      · exact Relation.TransGen.tail (ihn h) (hg n)
      · subst h
        exact Relation.TransGen.single (hg m)
  have hmaps : ∀ n ∈ Finset.range (S.length + 1), (g n).1 ∈ S.toFinset :=
    fun n _ => List.mem_toFinset.2 (g n).2
  have hcard : S.toFinset.card < (Finset.range (S.length + 1)).card := by
    rw [Finset.card_range]
    exact Nat.lt_succ_of_le (List.toFinset_card_le S)
  obtain ⟨m, hm, n, hn, hmn, heq⟩ :=
    Finset.exists_ne_map_eq_of_card_lt_of_maps_to hcard hmaps
  rcases Nat.lt_or_ge m n with h | h
  · have htg := hchain m n h
    rw [← heq] at htg
    exact ⟨(g m).1, htg⟩
  · have h' : n < m := Nat.lt_of_le_of_ne h (fun he => hmn he.symm)
    have htg := hchain n m h'
    rw [heq] at htg
    exact ⟨(g n).1, htg⟩

/-- A dependency map in which no stored dependency is itself a tracked key
has no cycles (every edge target has no outgoing edge). -/
theorem acyclic_of_flat (E : DepMap)
    (h : ∀ p ∈ E, ∀ y ∈ p.2, alookup E y = none) : Acyclic E := by
  intro x hx
  obtain ⟨w, hxw, _⟩ := Relation.TransGen.head'_iff.1 hx
  obtain ⟨b, _, hbx⟩ := Relation.TransGen.tail'_iff.1 hx
  obtain ⟨ds, hds, hyx⟩ := hbx
  have hnone := h (b, ds) (alookup_mem hds) x hyx
  obtain ⟨ds2, hds2, _⟩ := hxw
  rw [hnone] at hds2
  cases hds2

theorem solve_eq_ok (E : DepMap) {sF : List Node} {stF : DepMap}
    (h : solveLoopF (weight E (preprocessGo E E).2 + 1) (preprocessGo E E).1 E
      (preprocessGo E E).2 = (sF, stF, [])) :
    solve ⟨E⟩ = (.ok sF, ⟨stF⟩) := by
  simp only [solve, h]

/-- C1 counterexample: the map `{a: {d}, b: {d}}` is acyclic and well
formed, yet `solve()` returns `['d', 'd', 'a', 'b']`, in which the
dependency-only node `d` occurs twice — the result is not a permutation
of the nodes (line 118 of dependency.py appends an untracked dependency
once per tracked node that references it). -/
theorem C1_counterexample :
    WFdep [("a", ["d"]), ("b", ["d"])] ∧
    Acyclic [("a", ["d"]), ("b", ["d"])] ∧
    (solve ⟨[("a", ["d"]), ("b", ["d"])]⟩).1 = .ok ["d", "d", "a", "b"] ∧
    (["d", "d", "a", "b"] : List Node).count "d" = 2 :=
  ⟨by decide, acyclic_of_flat _ (by decide), by decide, by decide⟩

/-- C1 (amended): for every well-formed acyclic dependency map, `solve()`
succeeds and returns a sequence that contains every tracked node exactly
once and every dependency-only node once per tracked node whose stored set
references it, ordered so that every tracked node appears strictly after
all its direct dependencies (first occurrence included, no later
occurrence). -/
theorem C1_solve_acyclic (s : DependencySolver)
    (hwf : WFdep s._dependencies) (hacyc : Acyclic s._dependencies) :
    ∃ l s', solve s = (.ok l, s') ∧
      (∀ k ∈ s._dependencies.map Prod.fst, l.count k = 1) ∧
      (∀ d, d ∉ s._dependencies.map Prod.fst →
        l.count d = countDependents s._dependencies d) ∧
      (∀ p x q, l = p ++ x :: q → ∀ ds₀, alookup s._dependencies x = some ds₀ →
        ∀ d ∈ ds₀, d ∈ p ∧ d ∉ x :: q) := by
  obtain ⟨E⟩ := s
  have hfixF := loopF_fix (weight E (preprocessGo E E).2 + 1) (preprocessGo E E).1 E
    (preprocessGo E E).2 (Nat.lt_succ_self _)
  have hinvF := loopF_inv E (weight E (preprocessGo E E).2 + 1) (preprocessGo E E).1 E
    (preprocessGo E E).2 (preprocess_inv E hwf)
  have hmono := loopF_s_mono (weight E (preprocessGo E E).2 + 1) (preprocessGo E E).1 E
    (preprocessGo E E).2
  have hlsub := loopF_l_sub (weight E (preprocessGo E E).2 + 1) (preprocessGo E E).1 E
    (preprocessGo E E).2
  rcases hF : solveLoopF (weight E (preprocessGo E E).2 + 1) (preprocessGo E E).1 E
    (preprocessGo E E).2 with ⟨sF, stF, lF⟩
  rw [hF] at hfixF hinvF hmono hlsub
  have hfix' : (solvePass lF sF stF lF false).2.2.2 = false := hfixF
  have hinv' : SolveInv E sF stF lF := hinvF
  have hmono' : ∃ t, sF = (preprocessGo E E).1 ++ t := hmono
  have hlsub' : ∀ x ∈ lF, x ∈ (preprocessGo E E).2 := hlsub
  have hfixpt := (pass_false_id lF sF stF lF hfix').2
  have hs0 : ∀ x ∈ (preprocessGo E E).1, x ∈ sF := by
    obtain ⟨t, ht⟩ := hmono'
    intro x hx
    rw [ht]
    exact List.mem_append_left t hx
  have hlnil : lF = [] := by
    by_contra hne
    have hclosed := fix_closed E hwf hinv' hfixpt hs0 hlsub'
    have hstep : ∀ k ∈ lF, ∃ d, d ∈ lF ∧ hasEdge E k d := by
      intro k hk
      obtain ⟨ds, _, hdne, hdl, hedges⟩ := hclosed k hk
      obtain ⟨d, hd⟩ := List.exists_mem_of_ne_nil ds hdne
      exact ⟨d, hdl d hd, hedges d hd⟩
    obtain ⟨x, hx⟩ := exists_cycle_of_closed hne hstep
    exact hacyc x hx
  subst hlnil
  refine ⟨sF, ⟨stF⟩, solve_eq_ok E hF, ?_, ?_, ?_⟩
  · intro k hk
    have hks : k ∈ sF := by
      by_contra hns
      exact absurd ((hinv'.locl_iff k hk).2 hns) (List.not_mem_nil k)
    have hle := hinv'.count_le k hk
    have hpos : 0 < sF.count k := List.count_pos_iff.2 hks
    omega
  · exact fun d hd => hinv'.count_dep d hd
  · exact fun p x q hsp ds₀ hds₀ d hd => hinv'.placed p x q hsp ds₀ hds₀ d hd

/-- C1 witness: the map `{a: {b}}` is well formed and acyclic, and the
amended theorem applies to it. -/
theorem C1_witness :
    (WFdep [("a", ["b"])] ∧ Acyclic [("a", ["b"])]) ∧
    (∃ l s', solve ⟨[("a", ["b"])]⟩ = (.ok l, s') ∧
      (∀ k ∈ ([("a", ["b"])] : DepMap).map Prod.fst, l.count k = 1) ∧
      (∀ d, d ∉ ([("a", ["b"])] : DepMap).map Prod.fst →
        l.count d = countDependents [("a", ["b"])] d) ∧
      (∀ p x q, l = p ++ x :: q → ∀ ds₀, alookup [("a", ["b"])] x = some ds₀ →
        ∀ d ∈ ds₀, d ∈ p ∧ d ∉ x :: q)) :=
  ⟨⟨by decide, acyclic_of_flat _ (by decide)⟩,
   C1_solve_acyclic ⟨[("a", ["b"])]⟩ (by decide) (acyclic_of_flat _ (by decide))⟩

/-! ## The cycle-witness loop (lines 133-138) -/

theorem buildLoopF_ok {E stF : DepMap} {S : List Node}
    (hS : ∀ k ∈ S, ∃ ds, alookup stF k = some ds ∧ ds ≠ [] ∧
      (∀ d ∈ ds, d ∈ S) ∧ ∀ d ∈ ds, hasEdge E k d) :
    ∀ (fuel : Nat) (st : DepMap) (seen : List Node) (last : Node),
    seen.Nodup → seen ≠ [] → (∀ x ∈ seen, x ∈ S) → last ∈ S →
    (∀ k ∈ S, k ∉ seen → alookup st k = alookup stF k) →
    List.Chain' (hasEdge E) (seen ++ [last]) →
    S.length < fuel + seen.length →
    ∃ path st', buildLoopF fuel st S seen last = (some path, st') ∧
      2 ≤ path.length ∧ List.Chain' (hasEdge E) path ∧
      ∃ z, path.getLast? = some z ∧ z ∈ path.dropLast := by
  intro fuel
  induction fuel with
  | zero =>
    intro st seen last hnd hne hsub hlast hst hch hft
    by_cases hmem : last ∈ seen
    · refine ⟨seen ++ [last], st, ?_, ?_, hch, last, List.getLast?_concat _, ?_⟩
      · simp only [buildLoopF]
        rw [if_pos hmem]
      · rw [List.length_append, List.length_singleton]
        have := List.length_pos.2 hne
        omega
      · rw [List.dropLast_concat]
        exact hmem
    · exfalso
      have hsp : List.Subperm seen S := hnd.subperm (fun x hx => hsub x hx)
      have := hsp.length_le
      omega
  | succ n ih =>
    intro st seen last hnd hne hsub hlast hst hch hft
    by_cases hmem : last ∈ seen
    · refine ⟨seen ++ [last], st, ?_, ?_, hch, last, List.getLast?_concat _, ?_⟩
      · simp only [buildLoopF]
        rw [if_pos hmem]
      · rw [List.length_append, List.length_singleton]
        have := List.length_pos.2 hne
        omega
      · rw [List.dropLast_concat]
        exact hmem
    · simp only [buildLoopF]
      rw [if_neg hmem]
      obtain ⟨ds, hdsF, hdne, hdS, hedges⟩ := hS last hlast
      have hstl : alookup st last = some ds := by
        rw [hst last hlast hmem]
        exact hdsF
      cases ds with
      | nil => exact absurd rfl hdne
      | cons d0 rest0 =>
        have hpop : popDep st S last = some (d0, storeSet st last rest0) := by
          unfold popDep
          rw [if_pos hlast, hstl]
        rw [hpop]
        apply ih (storeSet st last rest0) (seen ++ [last]) d0
        · rw [List.nodup_append]
          exact ⟨hnd, List.nodup_singleton last,
            fun a ha hb => hmem (by rwa [List.mem_singleton.1 hb] at ha)⟩
        · simp
        · intro x hx
          rcases List.mem_append.1 hx with hx | hx
          · exact hsub x hx
          · rw [List.mem_singleton.1 hx]
            exact hlast
        · exact hdS d0 (List.mem_cons_self _ _)
        · intro k hk hks
          have hkne : k ≠ last := fun he =>
            hks (List.mem_append_right seen (by rw [he]; exact List.mem_singleton_self last))
          have hkseen : k ∉ seen := fun hc => hks (List.mem_append_left _ hc)
          rw [storeSet, alookup_updVal_ne st _ hkne]
          exact hst k hk hkseen
        · rw [List.chain'_append]
          refine ⟨hch, List.chain'_singleton d0, ?_⟩
          intro x hx y hy
          rw [List.getLast?_concat] at hx
          have hx' : x = last := by
            cases hx
            rfl
          have hy' : y = d0 := by
            cases hy
            rfl
          rw [hx', hy']
          exact hedges d0 (List.mem_cons_self _ _)
        · rw [List.length_append, List.length_singleton]
          omega

/-- C4: for every well-formed dependency map containing a cycle, `solve()`
raises `DependencyLoop` with a witness path of length at least 2 whose
consecutive elements are edges of the original map and whose final element
already occurs earlier in the path. -/
theorem C4_solve_cyclic (s : DependencySolver) (hwf : WFdep s._dependencies)
    (hcyc : ∃ x, Relation.TransGen (hasEdge s._dependencies) x x) :
    ∃ path s', solve s = (.dependencyLoop path, s') ∧
      2 ≤ path.length ∧ List.Chain' (hasEdge s._dependencies) path ∧
      ∃ z, path.getLast? = some z ∧ z ∈ path.dropLast := by
  obtain ⟨E⟩ := s
  have hfixF := loopF_fix (weight E (preprocessGo E E).2 + 1) (preprocessGo E E).1 E
    (preprocessGo E E).2 (Nat.lt_succ_self _)
  have hinvF := loopF_inv E (weight E (preprocessGo E E).2 + 1) (preprocessGo E E).1 E
    (preprocessGo E E).2 (preprocess_inv E hwf)
  have hmono := loopF_s_mono (weight E (preprocessGo E E).2 + 1) (preprocessGo E E).1 E
    (preprocessGo E E).2
  have hlsub := loopF_l_sub (weight E (preprocessGo E E).2 + 1) (preprocessGo E E).1 E
    (preprocessGo E E).2
  rcases hF : solveLoopF (weight E (preprocessGo E E).2 + 1) (preprocessGo E E).1 E
    (preprocessGo E E).2 with ⟨sF, stF, lF⟩
  rw [hF] at hfixF hinvF hmono hlsub
  have hfix' : (solvePass lF sF stF lF false).2.2.2 = false := hfixF
  have hinv' : SolveInv E sF stF lF := hinvF
  have hmono' : ∃ t, sF = (preprocessGo E E).1 ++ t := hmono
  have hlsub' : ∀ x ∈ lF, x ∈ (preprocessGo E E).2 := hlsub
  have hfixpt := (pass_false_id lF sF stF lF hfix').2
  have hs0 : ∀ x ∈ (preprocessGo E E).1, x ∈ sF := by
    obtain ⟨t, ht⟩ := hmono'
    intro x hx
    rw [ht]
    exact List.mem_append_left t hx
  have hlne : lF ≠ [] := by
    intro hnil
    subst hnil
    obtain ⟨x, hx⟩ := hcyc
    obtain ⟨w, hxw, _⟩ := Relation.TransGen.head'_iff.1 hx
    obtain ⟨ds2, hds2, _⟩ := hxw
    have hxkeys : x ∈ E.map Prod.fst := (alookup_isSome E x).1 (by rw [hds2]; rfl)
    have hxs : x ∈ sF := by
      by_contra hns
      exact absurd ((hinv'.locl_iff x hxkeys).2 hns) (List.not_mem_nil x)
    obtain ⟨_, hrank⟩ := transGen_rank hinv'.placed hx hxs
    exact absurd hrank (Nat.lt_irrefl _)
  have hclosed := fix_closed E hwf hinv' hfixpt hs0 hlsub'
  cases lF with
  | nil => exact absurd rfl hlne
  | cons item t =>
    have hitem : item ∈ item :: t := List.mem_cons_self _ _
    obtain ⟨ds, hdsF, hdne, hdS, hedges⟩ := hclosed item hitem
    cases ds with
    | nil => exact absurd rfl hdne
    | cons d0 rest0 =>
      have hpop : popDep stF (item :: t) item = some (d0, storeSet stF item rest0) := by
        unfold popDep
        rw [if_pos hitem, hdsF]
      have hbuild := buildLoopF_ok hclosed ((item :: t).length + 1)
        (storeSet stF item rest0) [item] d0
        (List.nodup_singleton item) (by simp)
        (fun x hx => by rw [List.mem_singleton.1 hx]; exact hitem)
        (hdS d0 (List.mem_cons_self _ _))
        (by
          intro k hk hks
          have hkne : k ≠ item := fun he => hks (by rw [he]; exact List.mem_singleton_self item)
          rw [storeSet, alookup_updVal_ne stF _ hkne])
        (List.chain'_pair.2 (hedges d0 (List.mem_cons_self _ _)))
        (by
          rw [List.length_singleton]
          omega)
      obtain ⟨path, st', hbeq, hlen, hchain, z, hz, hzd⟩ := hbuild
      refine ⟨path, ⟨st'⟩, ?_, hlen, hchain, z, hz, hzd⟩
      simp only [solve, hF, hpop, hbeq]

/-- C4 witness: the self-loop map `{a: {a}}` is well formed and cyclic, and
the theorem applies to it. -/
theorem C4_witness :
    (WFdep [("a", ["a"])] ∧
      ∃ x, Relation.TransGen (hasEdge [("a", ["a"])]) x x) ∧
    (∃ path s', solve ⟨[("a", ["a"])]⟩ = (.dependencyLoop path, s') ∧
      2 ≤ path.length ∧ List.Chain' (hasEdge [("a", ["a"])]) path ∧
      ∃ z, path.getLast? = some z ∧ z ∈ path.dropLast) :=
  ⟨⟨by decide, ⟨"a", Relation.TransGen.single (by decide)⟩⟩,
   C4_solve_cyclic ⟨[("a", ["a"])]⟩ (by decide)
     ⟨"a", Relation.TransGen.single (by decide)⟩⟩

end ScoreInit
